import Mathlib

/-!
# CPixelSet (pixelset.h): directional views over a pixel buffer

A shallow embedding of `class CPixelSet` from `src/pixelset.h`.

* A `CRGB *` is modelled by the index of the cell it points at (an `Int`);
  pixel memory is a function from cell indices to pixels.  Pointer arithmetic
  is plain integer arithmetic on cell indices.
* `int` is a 32-bit two's-complement integer: every `int` operation of the
  source is followed by `wrap32`.
* `char dir` holds `1` or `-1`; it is read as a signed char (the portable
  `#else` constructor stores `-1` in it and the loops add it to an `int`).
* The pixel type `CRGB` and the free functions of the colour library
  (`::fill_solid`, `::fill_gradient`, ...) are not defined in this
  repository: the pixel type is a type parameter, pixel operations and
  library functions are parameters or are modelled from the specification.
-/

namespace PixelSet

/-! ## Machine integers and memory -/

/-- Two's-complement reduction of an integer to the range of a 32-bit `int`. -/
def wrap32 (x : Int) : Int := (x + 2147483648) % 4294967296 - 2147483648

/-- The value fits a 32-bit signed `int`. -/
def Int32 (x : Int) : Prop := -2147483648 ≤ x ∧ x < 2147483648

instance (x : Int) : Decidable (Int32 x) := by
  unfold Int32; infer_instance

/-- Bitwise or of two 32-bit `int`s in two's complement (the C operator `|`):
the or of the two bit patterns, read back as a signed value. -/
def or32 (a b : Int) : Int :=
  wrap32 (((a % 4294967296).toNat ||| (b % 4294967296).toNat : Nat) : Int)

/-- Pixel memory: the pixel stored in each cell. -/
abbrev Mem (P : Type) := Int → P

/-- Store `c` in cell `a` (an assignment `p[..] = c`). -/
def Mem.write {P : Type} (m : Mem P) (a : Int) (c : P) : Mem P :=
  fun x => if x = a then c else m x

/-! ## The view -/

/-- The three data members of `CPixelSet` (pixelset.h lines 10-12). -/
structure CPixelSet where
  leds : Int
  len : Int
  dir : Int
deriving DecidableEq, Repr

namespace CPixelSet

/-- Line 17: `CPixelSet(CRGB *_leds, int _len) : leds(_leds), len(_len), dir(1)`. -/
def ofLen (_leds _len : Int) : CPixelSet := ⟨_leds, _len, 1⟩

/-- Line 21 (the portable branch):
`CPixelSet(CRGB *_leds, int _start, int _end) : leds(_leds), len(_end - _start)
 { dir = (len<0) ? -1 : 1; len += dir; }`. -/
def ofRange (_leds _start _end : Int) : CPixelSet :=
  let len0 := wrap32 (_end - _start)
  let dir := if len0 < 0 then -1 else 1
  ⟨_leds, wrap32 (len0 + dir), dir⟩

/-- Line 25: `int size() { return abs(len); }`. -/
def size (v : CPixelSet) : Int := if v.len < 0 then wrap32 (-v.len) else v.len

/-- Line 28: `bool reversed() { return len < 0; }`. -/
def reversed (v : CPixelSet) : Bool := decide (v.len < 0)

/-- Line 38: `operator[](int x) { if(dir) { return leds[x]; } else { return leds[-x]; } }`;
the result is the index of the cell the returned reference names. -/
def op_index (v : CPixelSet) (x : Int) : Int :=
  if v.dir ≠ 0 then v.leds + x else v.leds + wrap32 (-x)

/-- Line 44: `operator()(int start, int end) { return CPixelSet(leds+start, start, end); }`. -/
def op_call (v : CPixelSet) (start end_ : Int) : CPixelSet :=
  ofRange (v.leds + start) start end_

/-- Line 51: `operator-() { return CPixelSet(leds + len - dir, len - dir, 0); }`. -/
def op_neg (v : CPixelSet) : CPixelSet :=
  ofRange (v.leds + v.len - v.dir) (wrap32 (v.len - v.dir)) 0

end CPixelSet

/-! ## The colour library -/

/-- Modelled from the spec: the library function `::fill_solid(p, n, c)`, which is
not part of this repository, writes `c` to the cells `p .. p+n-1` when `n > 0`
and writes nothing when `n <= 0`. -/
def lib_fill_solid {P : Type} (p n : Int) (c : P) (m : Mem P) : Mem P :=
  fun x => if p ≤ x ∧ x < p + n then c else m x

namespace CPixelSet

/-- Line 102: `fill_solid(const CRGB & color) { if(dir) { ::fill_solid(leds, len, color); }
else { ::fill_solid(leds + len + 1, -len, color); } return *this; }`. -/
def fill_solid {P : Type} (v : CPixelSet) (color : P) (m : Mem P) : Mem P :=
  if v.dir ≠ 0 then lib_fill_solid v.leds v.len color m
  else lib_fill_solid (v.leds + v.len + 1) (wrap32 (-v.len)) color m

end CPixelSet

/-- The gradient functions of the colour library, which are not part of this
repository, taken as arbitrary functions of their arguments
`(pointer, count, stops.., directionCode)` acting on pixel memory.  `H` is the
type `CHSV`, `P` the type `CRGB`, `D` the type `TGradientDirectionCode`. -/
structure ColorUtils (P H D : Type) where
  fill_gradient2 : Int → Int → H → H → D → Mem P → Mem P
  fill_gradient3 : Int → Int → H → H → H → D → Mem P → Mem P
  fill_gradient4 : Int → Int → H → H → H → H → D → Mem P → Mem P
  fill_gradient_RGB2 : Int → Int → P → P → Mem P → Mem P
  fill_gradient_RGB3 : Int → Int → P → P → P → Mem P → Mem P
  fill_gradient_RGB4 : Int → Int → P → P → P → P → Mem P → Mem P

namespace CPixelSet

variable {P H D : Type}

/-- Lines 114-121: the two-stop `fill_gradient`. -/
def fill_gradient2 (L : ColorUtils P H D) (v : CPixelSet) (startcolor endcolor : H)
    (directionCode : D) (m : Mem P) : Mem P :=
  if v.dir ≥ 0 then L.fill_gradient2 v.leds v.len startcolor endcolor directionCode m
  else L.fill_gradient2 (v.leds + v.len + 1) (wrap32 (-v.len)) endcolor startcolor directionCode m

/-- Lines 123-130: the three-stop `fill_gradient`. -/
def fill_gradient3 (L : ColorUtils P H D) (v : CPixelSet) (c1 c2 c3 : H)
    (directionCode : D) (m : Mem P) : Mem P :=
  if v.dir ≥ 0 then L.fill_gradient3 v.leds v.len c1 c2 c3 directionCode m
  else L.fill_gradient3 (v.leds + v.len + 1) (wrap32 (-v.len)) c3 c2 c1 directionCode m

/-- Lines 132-139: the four-stop `fill_gradient`. -/
def fill_gradient4 (L : ColorUtils P H D) (v : CPixelSet) (c1 c2 c3 c4 : H)
    (directionCode : D) (m : Mem P) : Mem P :=
  if v.dir ≥ 0 then L.fill_gradient4 v.leds v.len c1 c2 c3 c4 directionCode m
  else L.fill_gradient4 (v.leds + v.len + 1) (wrap32 (-v.len)) c4 c3 c2 c1 directionCode m

/-- Lines 141-148: the two-stop `fill_gradient_RGB`; its `directionCode`
parameter is accepted and not passed on. -/
def fill_gradient_RGB2 (L : ColorUtils P H D) (v : CPixelSet) (startcolor endcolor : P)
    (_directionCode : D) (m : Mem P) : Mem P :=
  if v.dir ≥ 0 then L.fill_gradient_RGB2 v.leds v.len startcolor endcolor m
  else L.fill_gradient_RGB2 (v.leds + v.len + 1) (wrap32 (-v.len)) endcolor startcolor m

/-- Lines 150-157: the three-stop `fill_gradient_RGB`. -/
def fill_gradient_RGB3 (L : ColorUtils P H D) (v : CPixelSet) (c1 c2 c3 : P)
    (m : Mem P) : Mem P :=
  if v.dir ≥ 0 then L.fill_gradient_RGB3 v.leds v.len c1 c2 c3 m
  else L.fill_gradient_RGB3 (v.leds + v.len + 1) (wrap32 (-v.len)) c3 c2 c1 m

/-- Lines 159-166: the four-stop `fill_gradient_RGB`. -/
def fill_gradient_RGB4 (L : ColorUtils P H D) (v : CPixelSet) (c1 c2 c3 c4 : P)
    (m : Mem P) : Mem P :=
  if v.dir ≥ 0 then L.fill_gradient_RGB4 v.leds v.len c1 c2 c3 c4 m
  else L.fill_gradient_RGB4 (v.leds + v.len + 1) (wrap32 (-v.len)) c4 c3 c2 c1 m

end CPixelSet

/-! ## The loop macros

Both macros are `for` loops over `int` counters.  A loop is run with a bound
on the number of body executions (`fuel`); it yields `none` when the bound is
used up before the loop condition fails, and otherwise the final state
together with the number of times the body ran. -/

/-- Line 5: `#define FOREACH for(int i=0; i != len; i += dir)`, started at
counter value `i`. -/
def FOREACH {σ : Type} (len dir : Int) (body : Int → σ → σ) :
    Nat → Int → σ → Option (σ × Nat)
  | 0, i, s => if i ≠ len then none else some (s, 0)
  | fuel + 1, i, s =>
    if i ≠ len then
      (FOREACH len dir body fuel (wrap32 (i + dir)) (body i s)).map
        (fun r => (r.1, r.2 + 1))
    else some (s, 0)

/-- Line 4: `#define FOREACH_RHS for(int i=0,j=0; i!=len && j != rhs.len; i+=dir,j+=rhs.dir)`,
started at counter values `i`, `j`. -/
def FOREACH_RHS {σ : Type} (len dir rhs_len rhs_dir : Int) (body : Int → Int → σ → σ) :
    Nat → Int → Int → σ → Option (σ × Nat)
  | 0, i, j, s => if i ≠ len ∧ j ≠ rhs_len then none else some (s, 0)
  | fuel + 1, i, j, s =>
    if i ≠ len ∧ j ≠ rhs_len then
      (FOREACH_RHS len dir rhs_len rhs_dir body fuel
          (wrap32 (i + dir)) (wrap32 (j + rhs_dir)) (body i j s)).map
        (fun r => (r.1, r.2 + 1))
    else some (s, 0)

namespace CPixelSet

variable {P : Type}

/-- Line 58: `operator=(const CRGB & color) { FOREACH { leds[i] = color; } return *this; }`.
The result is the memory after the loop and the number of body executions. -/
def op_assign_color (v : CPixelSet) (color : P) (m : Mem P) (fuel : Nat) :
    Option (Mem P × Nat) :=
  FOREACH v.len v.dir (fun i s => s.write (v.leds + i) color) fuel 0 m

/-- Line 62: `operator=(const CPixelSet & rhs) { FOREACH_RHS { leds[i] = rhs.leds[j]; } return *this; }`. -/
def op_assign_set (v rhs : CPixelSet) (m : Mem P) (fuel : Nat) : Option (Mem P × Nat) :=
  FOREACH_RHS v.len v.dir rhs.len rhs.dir
    (fun i j s => s.write (v.leds + i) (s (rhs.leds + j))) fuel 0 0 m

/-- Line 66: `operator+=(CPixelSet & rhs) { FOREACH_RHS { leds[i] += rhs.leds[j]; } return *this; }`.
The pixel addition `CRGB::operator+=` is the parameter `add`. -/
def op_add_assign (add : P → P → P) (v rhs : CPixelSet) (m : Mem P) (fuel : Nat) :
    Option (Mem P × Nat) :=
  FOREACH_RHS v.len v.dir rhs.len rhs.dir
    (fun i j s => s.write (v.leds + i) (add (s (v.leds + i)) (s (rhs.leds + j)))) fuel 0 0 m

end CPixelSet

/-! ## The iterator -/

/-- Lines 200-202: `class pixelset_iterator { CPixelSet & set; int i; ... }`; the bound
view is never modified through an iterator, so it is held by value. -/
structure pixelset_iterator where
  set : CPixelSet
  i : Int
deriving DecidableEq, Repr

namespace pixelset_iterator

/-- Line 207: `operator++() { i += set.dir; return *this; }`. -/
def op_incr (it : pixelset_iterator) : pixelset_iterator :=
  ⟨it.set, wrap32 (it.i + it.set.dir)⟩

/-- Line 211: `operator!=(pixelset_iterator & other) { return i != other.i || set != other.set; }`,
with `CPixelSet::operator!=` of line 34. -/
def op_ne (it other : pixelset_iterator) : Bool :=
  decide (it.i ≠ other.i) ||
    (decide (it.set.leds ≠ other.set.leds) || decide (it.set.len ≠ other.set.len)
      || decide (it.set.dir ≠ other.set.dir))

/-- Line 213: `operator*() { return set.leds[i]; }`; the index of the cell referred to. -/
def op_deref (it : pixelset_iterator) : Int := it.set.leds + it.i

end pixelset_iterator

namespace CPixelSet

/-- Line 216: `begin() { return pixelset_iterator(*this, 0); }`. -/
def begin (v : CPixelSet) : pixelset_iterator := ⟨v, 0⟩

/-- Line 217: `end() { return pixelset_iterator(*this, len); }`. -/
def end_ (v : CPixelSet) : pixelset_iterator := ⟨v, v.len⟩

end CPixelSet

/-- The cells dereferenced by the loop `for(it = first; it != last; ++it) use(*it);`,
in order; `none` when the loop is still running after `fuel` steps. -/
def visited (last : pixelset_iterator) : Nat → pixelset_iterator → Option (List Int)
  | 0, it => if it.op_ne last then none else some []
  | fuel + 1, it =>
    if it.op_ne last then (visited last fuel it.op_incr).map (fun l => it.op_deref :: l)
    else some []

/-- The cells visited by iterating a view from `begin()` to `end()`. -/
def CPixelSet.cells (v : CPixelSet) (fuel : Nat) : Option (List Int) :=
  visited v.end_ fuel v.begin

/-! ## Further members of the class -/

namespace CPixelSet

variable {P : Type}

/-- Line 16: `CPixelSet(const CPixelSet & other) : leds(other.leds), len(other.len), dir(other.dir)`. -/
def copy (other : CPixelSet) : CPixelSet := ⟨other.leds, other.len, other.dir⟩

/-- Line 19 (the `ARM` branch):
`CPixelSet(CRGB *_leds, int _start, int _end) : leds(_leds), len(_end - _start), dir(0x01 | len>>31)
 { len += dir; }`.  The members are initialised in the order of their declaration
(`leds`, `len`, `dir`); `>>` binds tighter than `|` and is the arithmetic shift. -/
def ofRangeARM (_leds _start _end : Int) : CPixelSet :=
  let len0 := wrap32 (_end - _start)
  let dir := or32 1 (Int.shiftRight len0 31)
  ⟨_leds, wrap32 (len0 + dir), dir⟩

/-- Line 31: `operator==(const CPixelSet rhs) { return leds == rhs.leds && len == rhs.len && dir == rhs.dir; }`. -/
def op_eq (v rhs : CPixelSet) : Bool :=
  decide (v.leds = rhs.leds) && decide (v.len = rhs.len) && decide (v.dir = rhs.dir)

/-- Line 58 with the value it returns: `return *this` hands back the view the
operator was called on, next to the memory after the loop. -/
def op_assign_color_this (v : CPixelSet) (color : P) (m : Mem P) (fuel : Nat) :
    Option (CPixelSet × Mem P) :=
  (op_assign_color v color m fuel).map (fun r => (v, r.1))

/-- Line 87: `nscale8(CPixelSet & rhs) { FOREACH_RHS { leds[i].nscale8(leds[j]); } return *this; }`.
The pixel operation `CRGB::nscale8(const CRGB &)` is the parameter `nscale8`; its
argument is read through `leds`, the pointer of the view itself. -/
def nscale8_set (nscale8 : P → P → P) (v rhs : CPixelSet) (m : Mem P) (fuel : Nat) :
    Option (Mem P × Nat) :=
  FOREACH_RHS v.len v.dir rhs.len rhs.dir
    (fun i j s => s.write (v.leds + i) (nscale8 (s (v.leds + i)) (s (v.leds + j)))) fuel 0 0 m

/-- Line 99, the loop: `FOREACH { if(leds[i]) return true; } return false;` started at
counter value `i`.  The test `if(leds[i])` of a pixel is the parameter `nonzero`.
The result is `none` when the loop is still running after `fuel` passes. -/
def op_bool_loop (nonzero : P → Bool) (v : CPixelSet) (m : Mem P) : Nat → Int → Option Bool
  | 0, i => if i ≠ v.len then none else some false
  | fuel + 1, i =>
    if i ≠ v.len then
      if nonzero (m (v.leds + i)) then some true
      else op_bool_loop nonzero v m fuel (wrap32 (i + v.dir))
    else some false

/-- Line 99: `operator bool() { FOREACH { if(leds[i]) return true; } return false; }`. -/
def op_bool (nonzero : P → Bool) (v : CPixelSet) (m : Mem P) (fuel : Nat) : Option Bool :=
  op_bool_loop nonzero v m fuel 0

end CPixelSet

/-- Line 210: `operator==(pixelset_iterator & other) { return i == other.i && set==other.set; }`. -/
def pixelset_iterator.op_eq (it other : pixelset_iterator) : Bool :=
  decide (it.i = other.i) && it.set.op_eq other.set

/-- The remaining batch functions of the colour library, which are not part of
this repository, taken as arbitrary functions of `(pointer, count, ..)` acting on
pixel memory.  `uint8_t` and `fract8` arguments are natural numbers, `F` is the
type `float`. -/
structure BatchUtils (P F : Type) where
  fill_rainbow : Int → Int → Nat → Nat → Mem P → Mem P
  blur1d : Int → Int → Nat → Mem P → Mem P
  napplyGamma_video : Int → Int → F → Mem P → Mem P
  napplyGamma_video3 : Int → Int → F → F → F → Mem P → Mem P

namespace CPixelSet

variable {P F : Type}

/-- Lines 105-112: `fill_rainbow(uint8_t initialhue, uint8_t deltahue)`. -/
def fill_rainbow (B : BatchUtils P F) (v : CPixelSet) (initialhue deltahue : Nat)
    (m : Mem P) : Mem P :=
  if v.dir ≥ 0 then B.fill_rainbow v.leds v.len initialhue deltahue m
  else B.fill_rainbow (v.leds + v.len + 1) (wrap32 (-v.len)) initialhue deltahue m

/-- Lines 172-179: `blur1d(fract8 blur_amount)`. -/
def blur1d (B : BatchUtils P F) (v : CPixelSet) (blur_amount : Nat) (m : Mem P) : Mem P :=
  if v.dir ≥ 0 then B.blur1d v.leds v.len blur_amount m
  else B.blur1d (v.leds + v.len + 1) (wrap32 (-v.len)) blur_amount m

/-- Lines 181-188: `napplyGamma_video(float gamma)`. -/
def napplyGamma_video (B : BatchUtils P F) (v : CPixelSet) (gamma : F) (m : Mem P) : Mem P :=
  if v.dir ≥ 0 then B.napplyGamma_video v.leds v.len gamma m
  else B.napplyGamma_video (v.leds + v.len + 1) (wrap32 (-v.len)) gamma m

/-- Lines 190-197: `napplyGamma_video(float gammaR, float gammaG, float gammaB)`. -/
def napplyGamma_video3 (B : BatchUtils P F) (v : CPixelSet) (gammaR gammaG gammaB : F)
    (m : Mem P) : Mem P :=
  if v.dir ≥ 0 then B.napplyGamma_video3 v.leds v.len gammaR gammaG gammaB m
  else B.napplyGamma_video3 (v.leds + v.len + 1) (wrap32 (-v.len)) gammaR gammaG gammaB m

/-- The pointer argument of the library call in every batch member that tests
`dir >= 0` (lines 105-197): `leds`, or `leds + len + 1`. -/
def span_ptr (v : CPixelSet) : Int := if v.dir ≥ 0 then v.leds else v.leds + v.len + 1

/-- The count argument of the library call in every batch member that tests
`dir >= 0` (lines 105-197): `len`, or `-len`. -/
def span_count (v : CPixelSet) : Int := if v.dir ≥ 0 then v.len else wrap32 (-v.len)

end CPixelSet

/-! ## Vocabulary of the statements -/

namespace CPixelSet

/-- The `k`-th cell reached when a view is walked in its own order,
`leds + k*dir`: the cell `leds[i]` of the `k`-th pass of `FOREACH`, and the cell
`*it` after `k` increments of `begin()`. -/
def cell (v : CPixelSet) (k : Int) : Int := v.leds + k * v.dir

/-- A forward view (`dir = 1`, `len >= 0`) or a reverse view (`dir = -1`,
`len < 0`) whose `len` is a 32-bit `int` with a magnitude that `size()` can
return. -/
def Valid (v : CPixelSet) : Prop :=
  (v.dir = 1 ∧ 0 ≤ v.len ∧ v.len < 2147483648) ∨
  (v.dir = -1 ∧ -2147483648 < v.len ∧ v.len < 0)

instance (v : CPixelSet) : Decidable v.Valid := by
  unfold Valid; infer_instance

/-- The views produced by the two public constructors: `CPixelSet(leds, count)`
with a non-negative `int` count, and `CPixelSet(leds, start, end)` with a size
`|end - start| + 1` that fits a 32-bit `int`. -/
inductive Built : CPixelSet → Prop
  | span (leds count : Int) (h0 : 0 ≤ count) (h1 : count < 2147483648) :
      Built (ofLen leds count)
  | range (leds start end_ : Int) (h : |end_ - start| + 1 < 2147483648) :
      Built (ofRange leds start end_)

end CPixelSet

namespace CPixelSet

/-- The direction invariant: `dir = 1` and `len >= 0`, or `dir = -1` and `len < 0`. -/
def DirInv (v : CPixelSet) : Prop := (v.dir = 1 ∧ 0 ≤ v.len) ∨ (v.dir = -1 ∧ v.len < 0)

instance (v : CPixelSet) : Decidable v.DirInv := by
  unfold DirInv; infer_instance

/-- The views a program can reach without 32-bit overflow: the two public
constructors, copy construction, slicing and reversal. -/
inductive Reachable : CPixelSet → Prop
  | span (leds count : Int) (h0 : 0 ≤ count) (h1 : count < 2147483648) :
      Reachable (ofLen leds count)
  | range (leds start end_ : Int) (h : |end_ - start| + 1 < 2147483648) :
      Reachable (ofRange leds start end_)
  | copy (v : CPixelSet) (hv : Reachable v) : Reachable v.copy
  | slice (v : CPixelSet) (start end_ : Int) (hv : Reachable v)
      (h : |end_ - start| + 1 < 2147483648) : Reachable (v.op_call start end_)
  | neg (v : CPixelSet) (hv : Reachable v) : Reachable v.op_neg

end CPixelSet

/-! ## Sample inputs -/

/-- A sample gradient routine, used to run the definitions on concrete inputs:
the first cell of the span receives `first`, the other cells of the span `last`. -/
def sampleGradient (p n : Int) (first last : Nat) (m : Mem Nat) : Mem Nat :=
  fun x => if x = p ∧ 0 < n then first else if p < x ∧ x < p + n then last else m x

/-- A sample colour library over pixels and colours encoded as natural numbers. -/
def sampleUtils : ColorUtils Nat Nat Unit where
  fill_gradient2 := fun p n c1 c2 _ m => sampleGradient p n c1 c2 m
  fill_gradient3 := fun p n c1 _ c3 _ m => sampleGradient p n c1 c3 m
  fill_gradient4 := fun p n c1 _ _ c4 _ m => sampleGradient p n c1 c4 m
  fill_gradient_RGB2 := fun p n c1 c2 m => sampleGradient p n c1 c2 m
  fill_gradient_RGB3 := fun p n c1 _ c3 m => sampleGradient p n c1 c3 m
  fill_gradient_RGB4 := fun p n c1 _ _ c4 m => sampleGradient p n c1 c4 m

/-- A sample batch library over pixels encoded as natural numbers: every routine
stores its first parameter (0 for the gamma routines) in the cells of the span. -/
def sampleBatch : BatchUtils Nat Unit where
  fill_rainbow := fun p n hue _ m => lib_fill_solid p n hue m
  blur1d := fun p n amount m => lib_fill_solid p n amount m
  napplyGamma_video := fun p n _ m => lib_fill_solid p n 0 m
  napplyGamma_video3 := fun p n _ _ _ m => lib_fill_solid p n 0 m

/-! ## Theorems -/

/-! ### Arithmetic helpers -/

theorem wrap32_eq_self {x : Int} (h1 : -2147483648 ≤ x) (h2 : x < 2147483648) :
    wrap32 x = x := by
  unfold wrap32; omega

theorem ofRange_forward_eq (l s e : Int) (h1 : s ≤ e) (h2 : e - s < 2147483647) :
    CPixelSet.ofRange l s e = ⟨l, e - s + 1, 1⟩ := by
  have hw : wrap32 (e - s) = e - s := wrap32_eq_self (by omega) (by omega)
  have hpos : ¬ (e - s < 0) := by omega
  simp only [CPixelSet.ofRange, hw, hpos, if_false]
  rw [wrap32_eq_self (by omega) (by omega)]

theorem ofRange_reverse_eq (l s e : Int) (h1 : e < s) (h2 : -2147483648 < e - s) :
    CPixelSet.ofRange l s e = ⟨l, e - s - 1, -1⟩ := by
  have hw : wrap32 (e - s) = e - s := wrap32_eq_self (by omega) (by omega)
  have hneg : e - s < 0 := by omega
  simp only [CPixelSet.ofRange, hw, hneg, if_true]
  rw [wrap32_eq_self (by omega) (by omega)]
  rfl

theorem Valid_facts {v : CPixelSet} (h : v.Valid) :
    (v.dir = 1 ∨ v.dir = -1) ∧ 0 ≤ v.size ∧ v.size < 2147483648 ∧ v.len = v.size * v.dir := by
  obtain ⟨l, n, d⟩ := v
  simp only [CPixelSet.Valid] at h
  rcases h with ⟨hd, h1, h2⟩ | ⟨hd, h1, h2⟩
  · subst hd
    refine ⟨Or.inl rfl, ?_⟩
    simp only [CPixelSet.size, wrap32]
    split_ifs <;> omega
  · subst hd
    refine ⟨Or.inr rfl, ?_⟩
    simp only [CPixelSet.size, wrap32]
    split_ifs
    omega

theorem cell_injective {v : CPixelSet} (hd : v.dir = 1 ∨ v.dir = -1) (k t : Int)
    (h : v.cell k = v.cell t) : k = t := by
  unfold CPixelSet.cell at h
  rcases hd with h1 | h1 <;> rw [h1] at h <;> omega

/-! ### The loop `FOREACH_RHS` -/

/-- Invariant rule for `FOREACH_RHS` over two views of sizes `N` and `M`: started
at pass `t`, with `n` passes left until `min N M`, and with at least `n` units of
fuel, the loop ends after exactly `n` body executions, and an invariant kept by
every pass holds of the final state at `min N M`. -/
theorem FOREACH_RHS_invariant {σ : Type} (len dir rhs_len rhs_dir : Int)
    (body : Int → Int → σ → σ) (Inv : Int → σ → Prop) (N M : Int)
    (hd : dir = 1 ∨ dir = -1) (hrd : rhs_dir = 1 ∨ rhs_dir = -1)
    (hN0 : 0 ≤ N) (hN : N < 2147483648) (hM0 : 0 ≤ M) (hM : M < 2147483648)
    (hlen : len = N * dir) (hrlen : rhs_len = M * rhs_dir)
    (hstep : ∀ (t : Int) (s : σ), 0 ≤ t → t < N → t < M → Inv t s →
      Inv (t + 1) (body (t * dir) (t * rhs_dir) s)) :
    ∀ (n : Nat) (t : Int) (s : σ) (fuel : Nat), 0 ≤ t → t + n = min N M → n ≤ fuel →
      Inv t s →
      ∃ s', FOREACH_RHS len dir rhs_len rhs_dir body fuel (t * dir) (t * rhs_dir) s
          = some (s', n) ∧ Inv (min N M) s' := by
  intro n
  induction n with
  | zero =>
    intro t s fuel ht hmin _ hinv
    have htm : t = min N M := by omega
    have hstop : ¬ (t * dir ≠ len ∧ t * rhs_dir ≠ rhs_len) := by
      rcases min_choice N M with h | h
      · intro hc; apply hc.1; rw [hlen, htm, h]
      · intro hc; apply hc.2; rw [hrlen, htm, h]
    refine ⟨s, ?_, htm ▸ hinv⟩
    cases fuel <;> simp only [FOREACH_RHS, hstop, if_false]
  | succ n ih =>
    intro t s fuel ht hmin hfuel hinv
    have hlt : t < min N M := by omega
    have htN : t < N := lt_of_lt_of_le hlt (min_le_left _ _)
    have htM : t < M := lt_of_lt_of_le hlt (min_le_right _ _)
    have hgo : t * dir ≠ len ∧ t * rhs_dir ≠ rhs_len := by
      subst hlen hrlen
      rcases hd with h | h <;> rcases hrd with h2 | h2 <;> subst h <;> subst h2 <;>
        constructor <;> omega
    have hi : wrap32 (t * dir + dir) = (t + 1) * dir := by
      rcases hd with h | h <;> subst h <;> unfold wrap32 <;> omega
    have hj : wrap32 (t * rhs_dir + rhs_dir) = (t + 1) * rhs_dir := by
      rcases hrd with h | h <;> subst h <;> unfold wrap32 <;> omega
    obtain ⟨f, rfl⟩ : ∃ f, fuel = f + 1 := ⟨fuel - 1, by omega⟩
    obtain ⟨s', hrun, hs'⟩ := ih (t + 1) (body (t * dir) (t * rhs_dir) s) f (by omega)
      (by push_cast at hmin ⊢; omega) (by omega) (hstep t s ht htN htM hinv)
    refine ⟨s', ?_, hs'⟩
    simp only [FOREACH_RHS]
    rw [if_pos hgo, hi, hj, hrun]
    rfl

/-! ### Iteration visits the cells `leds + k*dir` -/

/-- Walking a forward or reverse view from the iterator at pass `t` to `end()`
dereferences the cells of the positions `t, t+1, ..` up to the size. -/
theorem visited_eq {v : CPixelSet} (hv : v.Valid) :
    ∀ (n : Nat) (t : Int) (fuel : Nat), 0 ≤ t → t + n = v.size → n ≤ fuel →
      visited v.end_ fuel ⟨v, t * v.dir⟩
        = some ((List.range n).map (fun k : Nat => v.cell (t + k))) := by
  obtain ⟨hd, hN0, hN, hlen⟩ := Valid_facts hv
  intro n
  induction n with
  | zero =>
    intro t fuel _ htn _
    have hstop : pixelset_iterator.op_ne ⟨v, t * v.dir⟩ v.end_ = false := by
      have : t * v.dir = v.len := by rw [hlen]; congr 1; omega
      simp [pixelset_iterator.op_ne, CPixelSet.end_, this]
    cases fuel <;> simp [visited, hstop]
  | succ n ih =>
    intro t fuel ht htn hfuel
    have hgo : pixelset_iterator.op_ne ⟨v, t * v.dir⟩ v.end_ = true := by
      have : t * v.dir ≠ v.len := by
        rw [hlen]
        rcases hd with h | h <;> rw [h] <;> omega
      simp [pixelset_iterator.op_ne, CPixelSet.end_, this]
    have hi : wrap32 (t * v.dir + v.dir) = (t + 1) * v.dir := by
      rcases hd with h | h <;> rw [h] <;> unfold wrap32 <;> omega
    obtain ⟨f, rfl⟩ : ∃ f, fuel = f + 1 := ⟨fuel - 1, by omega⟩
    have hrec := ih (t + 1) f (by omega) (by push_cast at htn ⊢; omega) (by omega)
    simp only [visited, hgo, if_true, pixelset_iterator.op_incr, hi, hrec, Option.map_some']
    rw [List.range_succ_eq_map]
    simp only [List.map_cons, List.map_map, pixelset_iterator.op_deref, CPixelSet.cell]
    congr 2
    · simp
    · apply List.map_congr_left
      intro k _
      simp only [Function.comp]
      push_cast
      ring

/-- Iterating a forward or reverse view from `begin()` to `end()` ends after
`size()` increments and dereferences the cells `leds + k*dir`, `k = 0 .. size()-1`,
in this order. -/
theorem cells_eq_of_Valid {v : CPixelSet} (hv : v.Valid) (fuel : Nat)
    (hfuel : v.size ≤ (fuel : Int)) :
    v.cells fuel = some ((List.range v.size.toNat).map (fun k : Nat => v.cell k)) := by
  obtain ⟨_, hN0, _, _⟩ := Valid_facts hv
  have h := visited_eq hv v.size.toNat 0 fuel (le_refl 0) (by omega) (by omega)
  simp only [zero_mul, zero_add] at h
  exact h

/-! ### The loop `FOREACH` -/

/-- Invariant rule for `FOREACH` over a view of size `N`: started at pass `t`, with
`n` passes left and at least `n` units of fuel, the loop ends after exactly `n`
body executions, and an invariant kept by every pass holds of the final state. -/
theorem FOREACH_invariant {σ : Type} (len dir : Int) (body : Int → σ → σ)
    (Inv : Int → σ → Prop) (N : Int) (hd : dir = 1 ∨ dir = -1)
    (hN : N < 2147483648) (hlen : len = N * dir)
    (hstep : ∀ (t : Int) (s : σ), 0 ≤ t → t < N → Inv t s → Inv (t + 1) (body (t * dir) s)) :
    ∀ (n : Nat) (t : Int) (s : σ) (fuel : Nat), 0 ≤ t → t + n = N → n ≤ fuel → Inv t s →
      ∃ s', FOREACH len dir body fuel (t * dir) s = some (s', n) ∧ Inv N s' := by
  intro n
  induction n with
  | zero =>
    intro t s fuel _ htn _ hinv
    have htN : t = N := by omega
    have hstop : ¬ (t * dir ≠ len) := by rw [hlen, htN]; exact fun h => h rfl
    refine ⟨s, ?_, htN ▸ hinv⟩
    cases fuel <;> simp only [FOREACH, hstop, if_false]
  | succ n ih =>
    intro t s fuel ht htn hfuel hinv
    have htN : t < N := by omega
    have hgo : t * dir ≠ len := by
      subst hlen
      rcases hd with h | h <;> subst h <;> omega
    have hi : wrap32 (t * dir + dir) = (t + 1) * dir := by
      rcases hd with h | h <;> subst h <;> unfold wrap32 <;> omega
    obtain ⟨f, rfl⟩ : ∃ f, fuel = f + 1 := ⟨fuel - 1, by omega⟩
    obtain ⟨s', hrun, hs'⟩ := ih (t + 1) (body (t * dir) s) f (by omega)
      (by push_cast at htn ⊢; omega) (by omega) (hstep t s ht htN hinv)
    refine ⟨s', ?_, hs'⟩
    simp only [FOREACH]
    rw [if_pos hgo, hi, hrun]
    rfl

/-- The loop of `operator bool` over a forward or reverse view, started at pass `t`:
it returns, and the result is `true` exactly when a cell at a position from `t`
on holds a nonzero pixel. -/
theorem op_bool_loop_spec {P : Type} (nonzero : P → Bool) {v : CPixelSet} (hv : v.Valid)
    (m : Mem P) :
    ∀ (n : Nat) (t : Int) (fuel : Nat), 0 ≤ t → t + n = v.size → n ≤ fuel →
      ∃ b, CPixelSet.op_bool_loop nonzero v m fuel (t * v.dir) = some b ∧
        (b = true ↔ ∃ k : Int, t ≤ k ∧ k < v.size ∧ nonzero (m (v.cell k)) = true) := by
  obtain ⟨hd, hN0, hN, hlen⟩ := Valid_facts hv
  intro n
  induction n with
  | zero =>
    intro t fuel _ htn _
    have hstop : ¬ (t * v.dir ≠ v.len) := by
      have : t = v.size := by omega
      rw [hlen, this]; exact fun h => h rfl
    refine ⟨false, ?_, ?_⟩
    · cases fuel <;> simp only [CPixelSet.op_bool_loop, hstop, if_false]
    · constructor
      · intro h; cases h
      · rintro ⟨k, hk1, hk2, _⟩; omega
  | succ n ih =>
    intro t fuel ht htn hfuel
    have htN : t < v.size := by omega
    have hgo : t * v.dir ≠ v.len := by
      rw [hlen]
      rcases hd with h | h <;> rw [h] <;> omega
    have hi : wrap32 (t * v.dir + v.dir) = (t + 1) * v.dir := by
      rcases hd with h | h <;> rw [h] <;> unfold wrap32 <;> omega
    obtain ⟨f, rfl⟩ : ∃ f, fuel = f + 1 := ⟨fuel - 1, by omega⟩
    by_cases hnz : nonzero (m (v.leds + t * v.dir)) = true
    · refine ⟨true, ?_, ?_⟩
      · simp only [CPixelSet.op_bool_loop]
        rw [if_pos hgo, if_pos hnz]
      · exact ⟨fun _ => ⟨t, le_refl t, htN, hnz⟩, fun _ => rfl⟩
    · obtain ⟨b, hrun, hb⟩ := ih (t + 1) f (by omega) (by push_cast at htn ⊢; omega) (by omega)
      refine ⟨b, ?_, ?_⟩
      · simp only [CPixelSet.op_bool_loop]
        rw [if_pos hgo, if_neg hnz, hi, hrun]
      · rw [hb]
        constructor
        · rintro ⟨k, hk1, hk2, hk3⟩
          exact ⟨k, by omega, hk2, hk3⟩
        · rintro ⟨k, hk1, hk2, hk3⟩
          have hkt : k ≠ t := by
            intro h
            rw [h] at hk3
            exact hnz hk3
          exact ⟨k, by omega, hk2, hk3⟩

/-- After `k` increments, for `k` up to the size, the iterator of a forward or
reverse view stands at the counter value `k*dir`. -/
theorem iterate_op_incr {v : CPixelSet} (hv : v.Valid) :
    ∀ k : Nat, (k : Int) ≤ v.size →
      pixelset_iterator.op_incr^[k] v.begin = ⟨v, k * v.dir⟩ := by
  obtain ⟨hd, hN0, hN, hlen⟩ := Valid_facts hv
  intro k
  induction k with
  | zero =>
    intro _
    simp [CPixelSet.begin]
  | succ k ih =>
    intro hk
    rw [Function.iterate_succ_apply', ih (by push_cast at hk; omega)]
    have hi : wrap32 ((k : Int) * v.dir + v.dir) = ((k + 1 : Nat) : Int) * v.dir := by
      push_cast at hk ⊢
      rcases hd with h | h <;> rw [h] <;> unfold wrap32 <;> omega
    simp only [pixelset_iterator.op_incr, hi]


/-! ### Further helpers -/

/-- The result of `wrap32` is a 32-bit value. -/
theorem wrap32_range (x : Int) : -2147483648 ≤ wrap32 x ∧ wrap32 x < 2147483648 := by
  unfold wrap32; omega

/-- The arithmetic shift by 31 of a 32-bit value is its sign: `-1` or `0`. -/
theorem shiftRight31 (x : Int) (h1 : -2147483648 ≤ x) (h2 : x < 2147483648) :
    Int.shiftRight x 31 = if x < 0 then -1 else 0 := by
  have h3 : Int.shiftRight x 31 = x / ((2 ^ 31 : Nat) : Int) := Int.shiftRight_eq_div_pow x 31
  rw [h3]
  norm_num
  split_ifs <;> omega

/-- The inclusive-range constructor, absent overflow, builds a forward or reverse
view, and a reverse view it builds has `len <= -2`. -/
theorem ofRange_Valid (l s e : Int) (h : |e - s| + 1 < 2147483648) :
    (CPixelSet.ofRange l s e).Valid ∧
      ((CPixelSet.ofRange l s e).dir = -1 → (CPixelSet.ofRange l s e).len ≤ -2) := by
  rcases le_or_lt s e with hle | hlt
  · have habs : |e - s| = e - s := abs_of_nonneg (by omega)
    rw [habs] at h
    rw [ofRange_forward_eq l s e hle (by omega)]
    refine ⟨Or.inl ⟨rfl, ?_, ?_⟩, ?_⟩
    · show 0 ≤ e - s + 1
      omega
    · show e - s + 1 < 2147483648
      omega
    · intro hd
      have : (1 : Int) = -1 := hd
      omega
  · have habs : |e - s| = -(e - s) := abs_of_neg (by omega)
    rw [habs] at h
    rw [ofRange_reverse_eq l s e hlt (by omega)]
    refine ⟨Or.inr ⟨rfl, ?_, ?_⟩, ?_⟩
    · show -2147483648 < e - s - 1
      omega
    · show e - s - 1 < 0
      omega
    · intro _
      show e - s - 1 ≤ -2
      omega

/-- Reversal of a forward or reverse view is a forward or reverse view, and when
it is reverse it has `len <= -2`. -/
theorem op_neg_Valid {v : CPixelSet} (hv : v.Valid) :
    v.op_neg.Valid ∧ (v.op_neg.dir = -1 → v.op_neg.len ≤ -2) := by
  obtain ⟨l, n, d⟩ := v
  simp only [CPixelSet.Valid] at hv
  rcases hv with ⟨hd, h1, h2⟩ | ⟨hd, h1, h2⟩
  · subst hd
    have hw : wrap32 (n - 1) = n - 1 := wrap32_eq_self (by omega) (by omega)
    simp only [CPixelSet.op_neg, hw]
    have habs : |0 - (n - 1)| < 2147483647 := abs_lt.2 ⟨by omega, by omega⟩
    exact ofRange_Valid _ _ _ (by omega)
  · subst hd
    have hw : wrap32 (n - -1) = n + 1 := by
      rw [wrap32_eq_self (by omega) (by omega)]; omega
    simp only [CPixelSet.op_neg, hw]
    have habs : |0 - (n + 1)| < 2147483647 := abs_lt.2 ⟨by omega, by omega⟩
    exact ofRange_Valid _ _ _ (by omega)

/-- The predicate `Valid` is the direction invariant for a 32-bit `len` with
`size() = |len|`. -/
theorem Valid_iff (v : CPixelSet) :
    v.Valid ↔ v.DirInv ∧ Int32 v.len ∧ v.size = |v.len| := by
  obtain ⟨l, n, d⟩ := v
  simp only [CPixelSet.Valid, CPixelSet.DirInv, Int32, CPixelSet.size, wrap32]
  constructor
  · rintro (⟨hd, h1, h2⟩ | ⟨hd, h1, h2⟩)
    · refine ⟨Or.inl ⟨hd, h1⟩, ⟨by omega, h2⟩, ?_⟩
      rw [abs_of_nonneg h1, if_neg (by omega)]
    · refine ⟨Or.inr ⟨hd, h2⟩, ⟨by omega, by omega⟩, ?_⟩
      rw [abs_of_neg h2, if_pos h2]
      omega
  · rintro ⟨⟨hd, h1⟩ | ⟨hd, h1⟩, ⟨h2, h3⟩, h4⟩
    · exact Or.inl ⟨hd, h1, h3⟩
    · refine Or.inr ⟨hd, ?_, h1⟩
      rw [abs_of_neg h1, if_pos h1] at h4
      omega


/-- Relational rule for `FOREACH_RHS`: two runs of the same loop from two states
related by `R` both end after the same number of passes, in related states, when
every pass keeps `R`. -/
theorem FOREACH_RHS_relation {σ : Type} (len dir rhs_len rhs_dir : Int)
    (body : Int → Int → σ → σ) (R : σ → σ → Prop) (N M : Int)
    (hd : dir = 1 ∨ dir = -1) (hrd : rhs_dir = 1 ∨ rhs_dir = -1)
    (hN : N < 2147483648) (hM : M < 2147483648)
    (hlen : len = N * dir) (hrlen : rhs_len = M * rhs_dir)
    (hstep : ∀ (t : Int) (s1 s2 : σ), 0 ≤ t → t < N → t < M → R s1 s2 →
      R (body (t * dir) (t * rhs_dir) s1) (body (t * dir) (t * rhs_dir) s2)) :
    ∀ (n : Nat) (t : Int) (s1 s2 : σ) (fuel : Nat), 0 ≤ t → t + n = min N M → n ≤ fuel →
      R s1 s2 →
      ∃ s1' s2',
        FOREACH_RHS len dir rhs_len rhs_dir body fuel (t * dir) (t * rhs_dir) s1
          = some (s1', n) ∧
        FOREACH_RHS len dir rhs_len rhs_dir body fuel (t * dir) (t * rhs_dir) s2
          = some (s2', n) ∧ R s1' s2' := by
  intro n
  induction n with
  | zero =>
    intro t s1 s2 fuel ht hmin _ hR
    have htm : t = min N M := by omega
    have hstop : ¬ (t * dir ≠ len ∧ t * rhs_dir ≠ rhs_len) := by
      rcases min_choice N M with h | h
      · intro hc; apply hc.1; rw [hlen, htm, h]
      · intro hc; apply hc.2; rw [hrlen, htm, h]
    refine ⟨s1, s2, ?_, ?_, hR⟩
    · cases fuel <;> simp only [FOREACH_RHS, hstop, if_false]
    · cases fuel <;> simp only [FOREACH_RHS, hstop, if_false]
  | succ n ih =>
    intro t s1 s2 fuel ht hmin hfuel hR
    have hlt : t < min N M := by omega
    have htN : t < N := lt_of_lt_of_le hlt (min_le_left _ _)
    have htM : t < M := lt_of_lt_of_le hlt (min_le_right _ _)
    have hgo : t * dir ≠ len ∧ t * rhs_dir ≠ rhs_len := by
      subst hlen hrlen
      rcases hd with h | h <;> rcases hrd with h2 | h2 <;> subst h <;> subst h2 <;>
        constructor <;> omega
    have hi : wrap32 (t * dir + dir) = (t + 1) * dir := by
      rcases hd with h | h <;> subst h <;> unfold wrap32 <;> omega
    have hj : wrap32 (t * rhs_dir + rhs_dir) = (t + 1) * rhs_dir := by
      rcases hrd with h | h <;> subst h <;> unfold wrap32 <;> omega
    obtain ⟨f, rfl⟩ : ∃ f, fuel = f + 1 := ⟨fuel - 1, by omega⟩
    obtain ⟨s1', s2', hrun1, hrun2, hR'⟩ := ih (t + 1) (body (t * dir) (t * rhs_dir) s1)
      (body (t * dir) (t * rhs_dir) s2) f (by omega)
      (by push_cast at hmin ⊢; omega) (by omega) (hstep t s1 s2 ht htN htM hR)
    refine ⟨s1', s2', ?_, ?_, hR'⟩
    · simp only [FOREACH_RHS]
      rw [if_pos hgo, hi, hj, hrun1]
      rfl
    · simp only [FOREACH_RHS]
      rw [if_pos hgo, hi, hj, hrun2]
      rfl

/-! ### C1: mirror fill -/

/-- C1 (the code departs from the claim): on a 10-cell buffer of zero pixels,
`fill_solid(1)` through the ascending slice (2,7) sets exactly the cells 2..7,
while through the descending slice (7,2) the test `if(dir)` succeeds for
`dir = -1`, the library is called with the negative count `len = -6`, and no
cell is written: the two final buffers differ. -/
theorem fill_solid_mirror_diverges :
    ((CPixelSet.ofLen 0 10).op_call 7 2 = ⟨7, -6, -1⟩) ∧
    (∀ x : Int, ((CPixelSet.ofLen 0 10).op_call 2 7).fill_solid (1 : Nat) (fun _ => 0) x
        = if 2 ≤ x ∧ x ≤ 7 then 1 else 0) ∧
    (∀ x : Int, ((CPixelSet.ofLen 0 10).op_call 7 2).fill_solid (1 : Nat) (fun _ => 0) x = 0) ∧
    ((CPixelSet.ofLen 0 10).op_call 7 2).fill_solid (1 : Nat) (fun _ => 0)
      ≠ ((CPixelSet.ofLen 0 10).op_call 2 7).fill_solid (1 : Nat) (fun _ => 0) := by
  have e1 : (CPixelSet.ofLen 0 10).op_call 7 2 = ⟨7, -6, -1⟩ := by decide
  have e2 : (CPixelSet.ofLen 0 10).op_call 2 7 = ⟨2, 6, 1⟩ := by decide
  have hrev : ∀ x : Int,
      ((CPixelSet.ofLen 0 10).op_call 7 2).fill_solid (1 : Nat) (fun _ => 0) x = 0 := by
    intro x
    rw [e1]
    simp [CPixelSet.fill_solid, lib_fill_solid]
    omega
  refine ⟨e1, ?_, hrev, ?_⟩
  · intro x
    rw [e2]
    simp [CPixelSet.fill_solid, lib_fill_solid]
    split_ifs <;> first | rfl | omega
  · intro h
    have h3 := congrFun h 3
    rw [hrev 3, e2] at h3
    revert h3
    decide

/-! ### C2: gradient mirror -/

/-- C2: for a buffer of `M` cells at `buf` and `0 <= a < b < M`, every gradient
overload called on the slice `(a, b)` with stops `c1..ck` and on the slice
`(b, a)` with the stops reversed issues the same library call, with pointer
`buf + a`, count `b - a + 1` and stops `c1..ck`; the resulting memories are
therefore equal, whatever the library functions are. -/
theorem fill_gradient_mirror {P H D : Type} (L : ColorUtils P H D) (buf M a b : Int)
    (hM : M < 2147483648) (ha : 0 ≤ a) (hab : a < b) (hb : b < M)
    (c1 c2 c3 c4 : H) (p1 p2 p3 p4 : P) (d : D) (m : Mem P) :
    (((CPixelSet.ofLen buf M).op_call a b).fill_gradient2 L c1 c2 d m
        = L.fill_gradient2 (buf + a) (b - a + 1) c1 c2 d m ∧
      ((CPixelSet.ofLen buf M).op_call b a).fill_gradient2 L c2 c1 d m
        = L.fill_gradient2 (buf + a) (b - a + 1) c1 c2 d m) ∧
    (((CPixelSet.ofLen buf M).op_call a b).fill_gradient3 L c1 c2 c3 d m
        = L.fill_gradient3 (buf + a) (b - a + 1) c1 c2 c3 d m ∧
      ((CPixelSet.ofLen buf M).op_call b a).fill_gradient3 L c3 c2 c1 d m
        = L.fill_gradient3 (buf + a) (b - a + 1) c1 c2 c3 d m) ∧
    (((CPixelSet.ofLen buf M).op_call a b).fill_gradient4 L c1 c2 c3 c4 d m
        = L.fill_gradient4 (buf + a) (b - a + 1) c1 c2 c3 c4 d m ∧
      ((CPixelSet.ofLen buf M).op_call b a).fill_gradient4 L c4 c3 c2 c1 d m
        = L.fill_gradient4 (buf + a) (b - a + 1) c1 c2 c3 c4 d m) ∧
    (((CPixelSet.ofLen buf M).op_call a b).fill_gradient_RGB2 L p1 p2 d m
        = L.fill_gradient_RGB2 (buf + a) (b - a + 1) p1 p2 m ∧
      ((CPixelSet.ofLen buf M).op_call b a).fill_gradient_RGB2 L p2 p1 d m
        = L.fill_gradient_RGB2 (buf + a) (b - a + 1) p1 p2 m) ∧
    (((CPixelSet.ofLen buf M).op_call a b).fill_gradient_RGB3 L p1 p2 p3 m
        = L.fill_gradient_RGB3 (buf + a) (b - a + 1) p1 p2 p3 m ∧
      ((CPixelSet.ofLen buf M).op_call b a).fill_gradient_RGB3 L p3 p2 p1 m
        = L.fill_gradient_RGB3 (buf + a) (b - a + 1) p1 p2 p3 m) ∧
    (((CPixelSet.ofLen buf M).op_call a b).fill_gradient_RGB4 L p1 p2 p3 p4 m
        = L.fill_gradient_RGB4 (buf + a) (b - a + 1) p1 p2 p3 p4 m ∧
      ((CPixelSet.ofLen buf M).op_call b a).fill_gradient_RGB4 L p4 p3 p2 p1 m
        = L.fill_gradient_RGB4 (buf + a) (b - a + 1) p1 p2 p3 p4 m) := by
  have ef : (CPixelSet.ofLen buf M).op_call a b = ⟨buf + a, b - a + 1, 1⟩ := by
    simp only [CPixelSet.op_call, CPixelSet.ofLen]
    exact ofRange_forward_eq _ _ _ (by omega) (by omega)
  have er : (CPixelSet.ofLen buf M).op_call b a = ⟨buf + b, a - b - 1, -1⟩ := by
    simp only [CPixelSet.op_call, CPixelSet.ofLen]
    exact ofRange_reverse_eq _ _ _ (by omega) (by omega)
  have hp : buf + b + (a - b - 1) + 1 = buf + a := by omega
  have hc : wrap32 (-(a - b - 1)) = b - a + 1 := by
    rw [wrap32_eq_self (by omega) (by omega)]; omega
  have hd : ¬ ((-1 : Int) ≥ 0) := by decide
  have hd1 : ((1 : Int) ≥ 0) := by decide
  rw [ef, er]
  simp only [CPixelSet.fill_gradient2, CPixelSet.fill_gradient3, CPixelSet.fill_gradient4,
    CPixelSet.fill_gradient_RGB2, CPixelSet.fill_gradient_RGB3, CPixelSet.fill_gradient_RGB4,
    hp, hc, hd, hd1, if_true, if_false, and_self]

/-- C2, on a concrete input: a 10-cell buffer, the slices (0,9) and (9,0), the
two-stop gradient with the stops 5, 6 and reversed 6, 5. -/
theorem fill_gradient_mirror_witness :
    ((10 : Int) < 2147483648 ∧ (0 : Int) ≤ 0 ∧ (0 : Int) < 9 ∧ (9 : Int) < 10) ∧
    ((CPixelSet.ofLen 0 10).op_call 0 9).fill_gradient2 sampleUtils 5 6 () (fun _ => 0)
      = ((CPixelSet.ofLen 0 10).op_call 9 0).fill_gradient2 sampleUtils 6 5 () (fun _ => 0) :=
  ⟨by decide,
    (fill_gradient_mirror sampleUtils 0 10 0 9 (by decide) (by decide) (by decide) (by decide)
        5 6 0 0 0 0 0 0 () (fun _ => 0)).1.1.trans
      (fill_gradient_mirror sampleUtils 0 10 0 9 (by decide) (by decide) (by decide) (by decide)
        5 6 0 0 0 0 0 0 () (fun _ => 0)).1.2.symm⟩

/-! ### C3: indexing and iteration -/

/-- C3 (the code departs from the claim): for the reverse view `R` over the cells
3, 2, 1, 0 (the slice (3,0) of a 4-cell buffer), iteration from `begin()` to
`end()` dereferences the cells 3, 2, 1, 0, while `R[0], R[1], R[2], R[3]` name the
cells 3, 4, 5, 6: `if(dir)` in `operator[]` succeeds for `dir = -1`, so the
offset is `+i`, not `-i`. -/
theorem op_index_reverse_diverges :
    (CPixelSet.ofLen 0 4).op_call 3 0 = ⟨3, -4, -1⟩ ∧
    ((CPixelSet.ofLen 0 4).op_call 3 0).size = 4 ∧
    ((CPixelSet.ofLen 0 4).op_call 3 0).cells 4 = some [3, 2, 1, 0] ∧
    [0, 1, 2, 3].map ((CPixelSet.ofLen 0 4).op_call 3 0).op_index = [3, 4, 5, 6] := by
  decide

/-! ### C4: size and direction of an inclusive range -/

/-- C4 as stated fails: for `start = 0`, `end = 2147483647` the difference
`end - start` fits a 32-bit `int`, yet `len += dir` leaves the range: the view
has `dir = 1` with `len = -2147483648`, and `size()` is not `|end - start| + 1`. -/
theorem ofRange_size_counterexample :
    Int32 0 ∧ Int32 2147483647 ∧ Int32 (2147483647 - 0) ∧
    (CPixelSet.ofRange 0 0 2147483647).dir = 1 ∧
    ¬ (0 < (CPixelSet.ofRange 0 0 2147483647).len) ∧
    (CPixelSet.ofRange 0 0 2147483647).size ≠ |(2147483647 : Int) - 0| + 1 := by
  refine ⟨by decide, by decide, by decide, by decide, by decide, ?_⟩
  have h : (CPixelSet.ofRange 0 0 2147483647).size = -2147483648 := by decide
  rw [h]
  norm_num

/-- C4, amended: whenever the size `|end - start| + 1` itself fits a 32-bit
`int`, the view `CPixelSet(leds, start, end)` keeps `leds`, has
`size() = |end - start| + 1`, is forward (`dir = 1`, `len > 0`) when
`end >= start` and reverse (`dir = -1`, `len < 0`) when `end < start`; for
`start = end` it is a forward view of size exactly 1. -/
theorem ofRange_size_dir (leds start end_ : Int) (h : |end_ - start| + 1 < 2147483648) :
    (CPixelSet.ofRange leds start end_).leds = leds ∧
    (CPixelSet.ofRange leds start end_).size = |end_ - start| + 1 ∧
    (start ≤ end_ → (CPixelSet.ofRange leds start end_).dir = 1 ∧
      0 < (CPixelSet.ofRange leds start end_).len) ∧
    (end_ < start → (CPixelSet.ofRange leds start end_).dir = -1 ∧
      (CPixelSet.ofRange leds start end_).len < 0) ∧
    (start = end_ → (CPixelSet.ofRange leds start end_).dir = 1 ∧
      (CPixelSet.ofRange leds start end_).size = 1) := by
  rcases le_or_lt start end_ with hle | hlt
  · have habs : |end_ - start| = end_ - start := abs_of_nonneg (by omega)
    rw [habs] at h ⊢
    rw [ofRange_forward_eq leds start end_ hle (by omega)]
    simp only [CPixelSet.size]
    refine ⟨by first | rfl | trivial, ?_, ?_, ?_, ?_⟩
    · split_ifs <;> omega
    · intro _; exact ⟨by first | rfl | trivial, by omega⟩
    · intro h2; omega
    · intro h2; refine ⟨by first | rfl | trivial, ?_⟩; split_ifs <;> omega
  · have habs : |end_ - start| = -(end_ - start) := abs_of_neg (by omega)
    rw [habs] at h ⊢
    rw [ofRange_reverse_eq leds start end_ hlt (by omega)]
    simp only [CPixelSet.size]
    refine ⟨by first | rfl | trivial, ?_, ?_, ?_, ?_⟩
    · have hw : wrap32 (-(end_ - start - 1)) = -(end_ - start - 1) :=
        wrap32_eq_self (by omega) (by omega)
      rw [hw]
      split_ifs <;> omega
    · intro h2; omega
    · intro _; exact ⟨by first | rfl | trivial, by omega⟩
    · intro h2; omega

/-- C4 amended, on a concrete input: `start = end = 5` gives a forward view of size 1. -/
theorem ofRange_size_dir_witness :
    |(5 : Int) - 5| + 1 < 2147483648 ∧
    (CPixelSet.ofRange 0 5 5).dir = 1 ∧ (CPixelSet.ofRange 0 5 5).size = 1 :=
  ⟨by norm_num, (ofRange_size_dir 0 5 5 (by norm_num)).2.2.2.2 rfl⟩

/-- The bound of the amended C4 is tight: at the two other differences it
excludes, `end - start = -2147483647` and `end - start = -2147483648`, the size
is not `|end - start| + 1` either, and in the second case `len` is positive. -/
theorem ofRange_size_bound_tight :
    (CPixelSet.ofRange 0 2147483647 0).size = -2147483648 ∧
    (CPixelSet.ofRange 0 0 (-2147483648)).size = 2147483647 ∧
    (CPixelSet.ofRange 0 0 (-2147483648)).dir = -1 ∧
    0 < (CPixelSet.ofRange 0 0 (-2147483648)).len := by
  decide

/-! ### C5: reversal -/

/-- C5: for a non-empty view `v` (forward with `len >= 1`, `dir = 1`, or reverse
with `len <= -2`, `dir = -1`), `-v` has the size of `v`, and for every `k` in
`[0, size)` the `k`-th cell of `-v`, `(-v).leds + k*(-v).dir`, is the
`(size-1-k)`-th cell of `v`, `v.leds + (size-1-k)*v.dir`. -/
theorem op_neg_reverses (v : CPixelSet) (hlen : Int32 v.len)
    (hv : (v.dir = 1 ∧ 1 ≤ v.len) ∨ (v.dir = -1 ∧ v.len ≤ -2)) :
    v.op_neg.size = v.size ∧
    ∀ k : Int, 0 ≤ k → k < v.size →
      v.op_neg.leds + k * v.op_neg.dir = v.leds + (v.size - 1 - k) * v.dir := by
  obtain ⟨l, n, d⟩ := v
  simp only [Int32] at hlen
  simp only at hv hlen
  rcases hv with ⟨hd, hn⟩ | ⟨hd, hn⟩
  · subst hd
    constructor
    · simp only [CPixelSet.op_neg, CPixelSet.ofRange, CPixelSet.size, wrap32]
      split_ifs <;> omega
    · intro k hk0 hk
      simp only [CPixelSet.op_neg, CPixelSet.ofRange, CPixelSet.size, wrap32] at hk ⊢
      split_ifs at hk ⊢ <;> omega
  · subst hd
    constructor
    · simp only [CPixelSet.op_neg, CPixelSet.ofRange, CPixelSet.size, wrap32]
      split_ifs <;> omega
    · intro k hk0 hk
      simp only [CPixelSet.op_neg, CPixelSet.ofRange, CPixelSet.size, wrap32] at hk ⊢
      split_ifs at hk ⊢ <;> omega

/-- C5, on a concrete input: the forward view over the cells 2..7; its reversal
starts at the last cell 7. -/
theorem op_neg_reverses_witness :
    (Int32 6 ∧ (((1 : Int) = 1 ∧ (1 : Int) ≤ 6) ∨ ((1 : Int) = -1 ∧ (6 : Int) ≤ -2))) ∧
    (CPixelSet.op_neg ⟨2, 6, 1⟩).size = CPixelSet.size ⟨2, 6, 1⟩ ∧
    ∀ k : Int, 0 ≤ k → k < CPixelSet.size ⟨2, 6, 1⟩ →
      (CPixelSet.op_neg ⟨2, 6, 1⟩).leds + k * (CPixelSet.op_neg ⟨2, 6, 1⟩).dir
        = 2 + (CPixelSet.size ⟨2, 6, 1⟩ - 1 - k) * 1 :=
  ⟨by decide, op_neg_reverses ⟨2, 6, 1⟩ (by decide) (by decide)⟩

/-! ### C6: double reversal -/

/-- C6 (the code departs from the claim): the empty view `CPixelSet(buf, 0)` is
built by a constructor with `count >= 0`, has size 0, and iterating it visits no
cell; `operator-` turns it into the two-cell view `{buf - 1, 2, 1}`, so `-(-v)` is
the reverse view `{buf, -2, -1}` of size 2, and iterating it visits the cells
`buf`, `buf - 1` instead of none. -/
theorem op_neg_twice_empty_diverges :
    CPixelSet.Built (CPixelSet.ofLen 0 0) ∧
    (CPixelSet.ofLen 0 0).size = 0 ∧
    (CPixelSet.ofLen 0 0).cells 2 = some [] ∧
    (CPixelSet.ofLen 0 0).op_neg = ⟨-1, 2, 1⟩ ∧
    (CPixelSet.ofLen 0 0).op_neg.op_neg = ⟨0, -2, -1⟩ ∧
    (CPixelSet.ofLen 0 0).op_neg.op_neg.size = 2 ∧
    (CPixelSet.ofLen 0 0).op_neg.op_neg.cells 2 = some [0, -1] :=
  ⟨CPixelSet.Built.span 0 0 (by decide) (by decide), by decide, by decide, by decide,
    by decide, by decide, by decide⟩

/-- Supporting fact, away from the empty view: for every view `v` built by the
constructors with a size that fits an `int`, and every `i` in `[0, size)`,
`(-(-v))[i]` names the same cell as `v[i]`; and when `v` is not empty, `-(-v)`
is `v` itself (same `leds`, `len`, `dir`), so iterating `-(-v)` visits the
cells that iterating `v` visits, in the same order. -/
theorem op_neg_twice (v : CPixelSet) (hv : v.Built) :
    (∀ i : Int, 0 ≤ i → i < v.size → v.op_neg.op_neg.op_index i = v.op_index i) ∧
    (0 < v.size → v.op_neg.op_neg = v ∧
      ∀ fuel : Nat, v.op_neg.op_neg.cells fuel = v.cells fuel) := by
  have hkey : 0 < v.size → v.op_neg.op_neg = v := by
    cases hv with
    | span leds count h0 h1 =>
      intro hpos
      simp only [CPixelSet.ofLen, CPixelSet.size] at hpos
      simp only [CPixelSet.ofLen, CPixelSet.op_neg, CPixelSet.ofRange, wrap32,
        CPixelSet.mk.injEq]
      split_ifs at hpos ⊢ <;> omega
    | range leds start end_ h =>
      intro _
      rcases le_or_lt start end_ with hle | hlt
      · have habs : |end_ - start| = end_ - start := abs_of_nonneg (by omega)
        rw [habs] at h
        rw [ofRange_forward_eq leds start end_ hle (by omega)]
        simp only [CPixelSet.op_neg, CPixelSet.ofRange, wrap32, CPixelSet.mk.injEq]
        split_ifs <;> omega
      · have habs : |end_ - start| = -(end_ - start) := abs_of_neg (by omega)
        rw [habs] at h
        rw [ofRange_reverse_eq leds start end_ hlt (by omega)]
        simp only [CPixelSet.op_neg, CPixelSet.ofRange, wrap32, CPixelSet.mk.injEq]
        split_ifs <;> omega
  constructor
  · intro i _ hi
    rw [hkey (by omega)]
  · intro hpos
    refine ⟨hkey hpos, ?_⟩
    intro fuel
    rw [hkey hpos]

/-- The double reversal of the reverse view built by `CPixelSet(7, 7, 2)` is that
view. -/
theorem op_neg_twice_nonempty_instance :
    CPixelSet.Built (CPixelSet.ofRange 7 7 2) ∧
    (CPixelSet.ofRange 7 7 2).op_neg.op_neg = CPixelSet.ofRange 7 7 2 :=
  ⟨CPixelSet.Built.range 7 7 2 (by norm_num),
    ((op_neg_twice (CPixelSet.ofRange 7 7 2)
      (CPixelSet.Built.range 7 7 2 (by norm_num))).2 (by decide)).1⟩

/-! ### C7: slicing -/

/-- C7 (the code departs from the claim): for the reverse view `v` over the cells
9, 8, .., 0 of a 10-cell buffer, the slice `v(2, 5)` should visit the cells of
positions 2, 3, 4, 5 of `v`, that is 7, 6, 5, 4; the code offsets the pointer by
`+start` whatever the direction and builds the forward view at cell 11, which
visits 11, 12, 13, 14, none of them a cell of `v` or of the buffer. -/
theorem op_call_reverse_diverges :
    (CPixelSet.ofLen 0 10).op_call 9 0 = ⟨9, -10, -1⟩ ∧
    ((CPixelSet.ofLen 0 10).op_call 9 0).cells 10 = some [9, 8, 7, 6, 5, 4, 3, 2, 1, 0] ∧
    [2, 3, 4, 5].map ((CPixelSet.ofLen 0 10).op_call 9 0).cell = [7, 6, 5, 4] ∧
    ((CPixelSet.ofLen 0 10).op_call 9 0).op_call 2 5 = ⟨11, 4, 1⟩ ∧
    (((CPixelSet.ofLen 0 10).op_call 9 0).op_call 2 5).cells 4 = some [11, 12, 13, 14] := by
  decide

/-! ### C8: broadcast assignment read back through indexing -/

/-- C8 (the code departs from the claim): on zero pixels, `v = 1` for the reverse
view `v` over the cells 3, 2, 1, 0 runs four passes and writes 1 to those four
cells; reading back `v[0], v[1], v[2], v[3]` gives 1, 0, 0, 0, because
`operator[]` names the cells 3, 4, 5, 6. -/
theorem op_assign_color_reverse_diverges :
    ((CPixelSet.op_assign_color ((CPixelSet.ofLen 0 4).op_call 3 0) (1 : Nat) (fun _ => 0) 4).map
      (fun r => ([3, 2, 1, 0].map r.1,
        [0, 1, 2, 3].map (fun i => r.1 (((CPixelSet.ofLen 0 4).op_call 3 0).op_index i)),
        r.2)))
      = some ([1, 1, 1, 1], [1, 0, 0, 0], 4) := by
  decide

/-! ### C9: paired assignment -/

/-- C9: for views `self` and `other`, each forward or reverse, with disjoint
cells, and `n = min(self.size(), other.size())`, the assignment `self = other`
ends after exactly `n` passes (given at least `n` units of fuel); afterwards,
for every `k < n` the `k`-th cell of `self` holds what the `k`-th cell of
`other` held before the call, every cell of `self` at a position from `n` on is
unchanged, and so is every cell of `other`. -/
theorem op_assign_set_copies {P : Type} (self other : CPixelSet) (m : Mem P) (fuel : Nat)
    (hs : self.Valid) (ho : other.Valid)
    (hdisj : ∀ k l : Int, 0 ≤ k → k < self.size → 0 ≤ l → l < other.size →
      self.cell k ≠ other.cell l)
    (hfuel : min self.size other.size ≤ (fuel : Int)) :
    ∃ m', self.op_assign_set other m fuel = some (m', (min self.size other.size).toNat) ∧
      (∀ k : Int, 0 ≤ k → k < min self.size other.size →
        m' (self.cell k) = m (other.cell k)) ∧
      (∀ k : Int, min self.size other.size ≤ k → k < self.size →
        m' (self.cell k) = m (self.cell k)) ∧
      (∀ l : Int, 0 ≤ l → l < other.size → m' (other.cell l) = m (other.cell l)) := by
  obtain ⟨hd, hN0, hN, hlen⟩ := Valid_facts hs
  obtain ⟨hrd, hM0, hM, hrlen⟩ := Valid_facts ho
  have hmin0 : 0 ≤ min self.size other.size := le_min hN0 hM0
  have hstep : ∀ (t : Int) (s : Mem P), 0 ≤ t → t < self.size → t < other.size →
      ((∀ k : Int, 0 ≤ k → k < t → s (self.cell k) = m (other.cell k)) ∧
        (∀ a : Int, (∀ k : Int, 0 ≤ k → k < t → a ≠ self.cell k) → s a = m a)) →
      ((∀ k : Int, 0 ≤ k → k < t + 1 →
          Mem.write s (self.leds + t * self.dir) (s (other.leds + t * other.dir))
            (self.cell k) = m (other.cell k)) ∧
        (∀ a : Int, (∀ k : Int, 0 ≤ k → k < t + 1 → a ≠ self.cell k) →
          Mem.write s (self.leds + t * self.dir) (s (other.leds + t * other.dir)) a
            = m a)) := by
    intro t s ht htN htM hinv
    obtain ⟨h1, h2⟩ := hinv
    constructor
    · intro k hk0 hk
      unfold Mem.write
      by_cases hkt : k = t
      · subst hkt
        rw [if_pos (show self.cell k = self.leds + k * self.dir from rfl)]
        exact h2 (other.cell k) (fun k2 hk20 hk2 => (hdisj k2 k hk20 (by omega) hk0 htM).symm)
      · have hne : self.cell k ≠ self.leds + t * self.dir :=
          fun h => hkt (cell_injective hd k t h)
        rw [if_neg hne]
        exact h1 k hk0 (by omega)
    · intro a ha
      unfold Mem.write
      have hne : a ≠ self.leds + t * self.dir := ha t ht (by omega)
      rw [if_neg hne]
      exact h2 a (fun k hk0 hk => ha k hk0 (by omega))
  obtain ⟨m', hrun, h1, h2⟩ := FOREACH_RHS_invariant self.len self.dir other.len other.dir
    (fun i j s => Mem.write s (self.leds + i) (s (other.leds + j)))
    (fun t s => (∀ k : Int, 0 ≤ k → k < t → s (self.cell k) = m (other.cell k)) ∧
      (∀ a : Int, (∀ k : Int, 0 ≤ k → k < t → a ≠ self.cell k) → s a = m a))
    self.size other.size hd hrd hN0 hN hM0 hM hlen hrlen hstep
    (min self.size other.size).toNat 0 m fuel (le_refl 0) (by omega) (by omega)
    ⟨fun k hk0 hk => absurd hk (by omega), fun a _ => rfl⟩
  simp only [zero_mul] at hrun
  refine ⟨m', hrun, h1, ?_, ?_⟩
  · intro k hk1 hk2
    exact h2 (self.cell k) (fun k2 _ hk2lt h => by
      have := cell_injective hd k k2 h
      omega)
  · intro l hl0 hl
    exact h2 (other.cell l) (fun k hk0 hk => (hdisj k l hk0 (by omega) hl0 hl).symm)

/-- C9, on a concrete input: `self` is the reverse view over the cells 4, 3, 2, 1, 0
(size 5), `other` the forward view over the cells 10, 11, 12 (size 3), and the
memory holds `x` in cell `x`. -/
theorem op_assign_set_copies_witness :
    (CPixelSet.Valid ⟨4, -5, -1⟩ ∧ CPixelSet.Valid ⟨10, 3, 1⟩) ∧
    ∃ m' : Mem Int,
      CPixelSet.op_assign_set ⟨4, -5, -1⟩ ⟨10, 3, 1⟩ (fun x => x) 3
        = some (m', (min (CPixelSet.size ⟨4, -5, -1⟩) (CPixelSet.size ⟨10, 3, 1⟩)).toNat) ∧
      (∀ k : Int, 0 ≤ k → k < min (CPixelSet.size ⟨4, -5, -1⟩) (CPixelSet.size ⟨10, 3, 1⟩) →
        m' (CPixelSet.cell ⟨4, -5, -1⟩ k) = CPixelSet.cell ⟨10, 3, 1⟩ k) ∧
      (∀ k : Int, min (CPixelSet.size ⟨4, -5, -1⟩) (CPixelSet.size ⟨10, 3, 1⟩) ≤ k →
        k < CPixelSet.size ⟨4, -5, -1⟩ →
        m' (CPixelSet.cell ⟨4, -5, -1⟩ k) = CPixelSet.cell ⟨4, -5, -1⟩ k) ∧
      (∀ l : Int, 0 ≤ l → l < CPixelSet.size ⟨10, 3, 1⟩ →
        m' (CPixelSet.cell ⟨10, 3, 1⟩ l) = CPixelSet.cell ⟨10, 3, 1⟩ l) :=
  ⟨by decide,
    op_assign_set_copies ⟨4, -5, -1⟩ ⟨10, 3, 1⟩ (fun x => x) 3 (by decide) (by decide)
      (by
        intro k l hk0 hk hl0 hl
        have h5 : CPixelSet.size ⟨4, -5, -1⟩ = 5 := by decide
        have h3 : CPixelSet.size ⟨10, 3, 1⟩ = 3 := by decide
        rw [h5] at hk
        rw [h3] at hl
        simp only [CPixelSet.cell]
        omega)
      (by decide)⟩

/-! ### C10: pairwise addition -/

/-- C10: for views `A` and `B`, each forward or reverse, with
`A.size() > B.size()`, `A += B` ends after exactly `min(A.size(), B.size())`
passes (given that much fuel); every cell of `A` at a position from
`B.size()` on, and every memory cell that is not a cell of `A`, holds afterwards
the value it held before. -/
theorem op_add_assign_frame {P : Type} (add : P → P → P) (A B : CPixelSet) (m : Mem P)
    (fuel : Nat) (hA : A.Valid) (hB : B.Valid) (hsz : B.size < A.size)
    (hfuel : min A.size B.size ≤ (fuel : Int)) :
    ∃ m', A.op_add_assign add B m fuel = some (m', (min A.size B.size).toNat) ∧
      (∀ k : Int, B.size ≤ k → k < A.size → m' (A.cell k) = m (A.cell k)) ∧
      (∀ a : Int, (∀ k : Int, 0 ≤ k → k < A.size → a ≠ A.cell k) → m' a = m a) := by
  obtain ⟨hd, hN0, hN, hlen⟩ := Valid_facts hA
  obtain ⟨hrd, hM0, hM, hrlen⟩ := Valid_facts hB
  have hmin : min A.size B.size = B.size := min_eq_right (le_of_lt hsz)
  have hstep : ∀ (t : Int) (s : Mem P), 0 ≤ t → t < A.size → t < B.size →
      (∀ a : Int, (∀ k : Int, 0 ≤ k → k < t → a ≠ A.cell k) → s a = m a) →
      (∀ a : Int, (∀ k : Int, 0 ≤ k → k < t + 1 → a ≠ A.cell k) →
        Mem.write s (A.leds + t * A.dir)
          (add (s (A.leds + t * A.dir)) (s (B.leds + t * B.dir))) a = m a) := by
    intro t s ht _ _ hinv a ha
    unfold Mem.write
    have hne : a ≠ A.leds + t * A.dir := ha t ht (by omega)
    rw [if_neg hne]
    exact hinv a (fun k hk0 hk => ha k hk0 (by omega))
  obtain ⟨m', hrun, h2⟩ := FOREACH_RHS_invariant A.len A.dir B.len B.dir
    (fun i j s => Mem.write s (A.leds + i) (add (s (A.leds + i)) (s (B.leds + j))))
    (fun t s => ∀ a : Int, (∀ k : Int, 0 ≤ k → k < t → a ≠ A.cell k) → s a = m a)
    A.size B.size hd hrd hN0 hN hM0 hM hlen hrlen hstep
    (min A.size B.size).toNat 0 m fuel (le_refl 0) (by omega) (by omega)
    (fun a _ => rfl)
  simp only [zero_mul] at hrun
  rw [hmin] at h2
  refine ⟨m', hrun, ?_, ?_⟩
  · intro k hk1 hk2
    exact h2 (A.cell k) (fun k2 _ hk2lt h => by
      have := cell_injective hd k k2 h
      omega)
  · intro a ha
    exact h2 a (fun k hk0 hk => ha k hk0 (by omega))

/-- C10, on a concrete input: `A` is the forward view over the cells 0..4 (size 5),
`B` the reverse view over the cells 7, 6, 5 (size 3), pixels are numbers added
with saturation at 255. -/
theorem op_add_assign_frame_witness :
    (CPixelSet.Valid ⟨0, 5, 1⟩ ∧ CPixelSet.Valid ⟨7, -3, -1⟩ ∧
      CPixelSet.size ⟨7, -3, -1⟩ < CPixelSet.size ⟨0, 5, 1⟩) ∧
    ∃ m' : Mem Nat,
      CPixelSet.op_add_assign (fun x y => min 255 (x + y)) ⟨0, 5, 1⟩ ⟨7, -3, -1⟩
          (fun _ => 200) 3
        = some (m', (min (CPixelSet.size ⟨0, 5, 1⟩) (CPixelSet.size ⟨7, -3, -1⟩)).toNat) ∧
      (∀ k : Int, CPixelSet.size ⟨7, -3, -1⟩ ≤ k → k < CPixelSet.size ⟨0, 5, 1⟩ →
        m' (CPixelSet.cell ⟨0, 5, 1⟩ k) = 200) ∧
      (∀ a : Int, (∀ k : Int, 0 ≤ k → k < CPixelSet.size ⟨0, 5, 1⟩ →
        a ≠ CPixelSet.cell ⟨0, 5, 1⟩ k) → m' a = 200) :=
  ⟨by decide,
    op_add_assign_frame (fun x y => min 255 (x + y)) ⟨0, 5, 1⟩ ⟨7, -3, -1⟩ (fun _ => 200) 3
      (by decide) (by decide) (by decide) (by decide)⟩

/-! ### C11: truthiness -/

/-- C11: for every forward or reverse view `v`, the empty view included,
`operator bool()` returns (given `size()` units of fuel), and it returns `true`
if and only if one of the cells `leds + k*dir`, `0 <= k < size()`, holds a
nonzero pixel; cells outside the view play no part. -/
theorem op_bool_iff {P : Type} (nonzero : P → Bool) (v : CPixelSet) (m : Mem P) (fuel : Nat)
    (hv : v.Valid) (hfuel : v.size ≤ (fuel : Int)) :
    ∃ b, v.op_bool nonzero m fuel = some b ∧
      (b = true ↔ ∃ k : Int, 0 ≤ k ∧ k < v.size ∧ nonzero (m (v.cell k)) = true) := by
  obtain ⟨_, hN0, _, _⟩ := Valid_facts hv
  have h := op_bool_loop_spec nonzero hv m v.size.toNat 0 fuel (le_refl 0) (by omega) (by omega)
  simp only [zero_mul] at h
  exact h

/-- C11, on a concrete input: the reverse view over the cells 3, 2, 1, 0 in a
memory whose only nonzero pixel is in cell 1. -/
theorem op_bool_iff_witness :
    (CPixelSet.Valid ⟨3, -4, -1⟩ ∧ CPixelSet.size ⟨3, -4, -1⟩ ≤ ((4 : Nat) : Int)) ∧
    ∃ b, CPixelSet.op_bool (fun p : Nat => decide (p ≠ 0)) ⟨3, -4, -1⟩
        (fun x => if x = 1 then 9 else 0) 4 = some b ∧
      (b = true ↔ ∃ k : Int, 0 ≤ k ∧ k < CPixelSet.size ⟨3, -4, -1⟩ ∧
        (fun p : Nat => decide (p ≠ 0))
          ((fun x : Int => if x = 1 then 9 else 0) (CPixelSet.cell ⟨3, -4, -1⟩ k)) = true) :=
  ⟨by decide,
    op_bool_iff (fun p : Nat => decide (p ≠ 0)) ⟨3, -4, -1⟩ (fun x => if x = 1 then 9 else 0) 4
      (by decide) (by decide)⟩

/-! ### C12: the span handed to the library -/

/-- C12: for every forward or reverse view `v`, the pointer and count of the
library call made by `fill_rainbow`, `blur1d`, both `napplyGamma_video` and
every `fill_gradient` / `fill_gradient_RGB` overload are `(leds, len)` when `v`
is forward and `(leds + len + 1, -len)` when `v` is reverse (with the gradient
stops in the given order, respectively mirrored); the count is `size()`, which
is not negative, and the cells `pointer .. pointer + count - 1` are exactly the
cells `leds + k*dir`, `0 <= k < size()`, that iterating `v` visits. -/
theorem batch_span {P H D F : Type} (v : CPixelSet) (hv : v.Valid) :
    (v.dir = 1 → v.span_ptr = v.leds ∧ v.span_count = v.len) ∧
    (v.dir = -1 → v.span_ptr = v.leds + v.len + 1 ∧ v.span_count = -v.len) ∧
    v.span_count = v.size ∧ 0 ≤ v.span_count ∧
    (∀ a : Int, (v.span_ptr ≤ a ∧ a < v.span_ptr + v.span_count) ↔
      ∃ k : Int, 0 ≤ k ∧ k < v.size ∧ a = v.cell k) ∧
    (∀ (B : BatchUtils P F) (L : ColorUtils P H D) (m : Mem P) (hue delta blur : Nat)
        (g gr gg gb : F) (c1 c2 c3 c4 : H) (p1 p2 p3 p4 : P) (d : D),
      v.fill_rainbow B hue delta m = B.fill_rainbow v.span_ptr v.span_count hue delta m ∧
      v.blur1d B blur m = B.blur1d v.span_ptr v.span_count blur m ∧
      v.napplyGamma_video B g m = B.napplyGamma_video v.span_ptr v.span_count g m ∧
      v.napplyGamma_video3 B gr gg gb m
        = B.napplyGamma_video3 v.span_ptr v.span_count gr gg gb m ∧
      v.fill_gradient2 L c1 c2 d m
        = (if v.dir = 1 then L.fill_gradient2 v.span_ptr v.span_count c1 c2 d m
           else L.fill_gradient2 v.span_ptr v.span_count c2 c1 d m) ∧
      v.fill_gradient3 L c1 c2 c3 d m
        = (if v.dir = 1 then L.fill_gradient3 v.span_ptr v.span_count c1 c2 c3 d m
           else L.fill_gradient3 v.span_ptr v.span_count c3 c2 c1 d m) ∧
      v.fill_gradient4 L c1 c2 c3 c4 d m
        = (if v.dir = 1 then L.fill_gradient4 v.span_ptr v.span_count c1 c2 c3 c4 d m
           else L.fill_gradient4 v.span_ptr v.span_count c4 c3 c2 c1 d m) ∧
      v.fill_gradient_RGB2 L p1 p2 d m
        = (if v.dir = 1 then L.fill_gradient_RGB2 v.span_ptr v.span_count p1 p2 m
           else L.fill_gradient_RGB2 v.span_ptr v.span_count p2 p1 m) ∧
      v.fill_gradient_RGB3 L p1 p2 p3 m
        = (if v.dir = 1 then L.fill_gradient_RGB3 v.span_ptr v.span_count p1 p2 p3 m
           else L.fill_gradient_RGB3 v.span_ptr v.span_count p3 p2 p1 m) ∧
      v.fill_gradient_RGB4 L p1 p2 p3 p4 m
        = (if v.dir = 1 then L.fill_gradient_RGB4 v.span_ptr v.span_count p1 p2 p3 p4 m
           else L.fill_gradient_RGB4 v.span_ptr v.span_count p4 p3 p2 p1 m)) := by
  obtain ⟨l, n, d⟩ := v
  simp only [CPixelSet.Valid] at hv
  rcases hv with ⟨hd, h1, h2⟩ | ⟨hd, h1, h2⟩
  · subst hd
    have hge : ((1 : Int) ≥ 0) := by decide
    have hp : CPixelSet.span_ptr ⟨l, n, 1⟩ = l := by simp [CPixelSet.span_ptr]
    have hc : CPixelSet.span_count ⟨l, n, 1⟩ = n := by simp [CPixelSet.span_count]
    have hs : CPixelSet.size ⟨l, n, 1⟩ = n := by
      simp only [CPixelSet.size]; rw [if_neg (by omega)]
    rw [hp, hc, hs]
    refine ⟨fun _ => ⟨rfl, rfl⟩, fun h => absurd (show (1 : Int) = -1 from h) (by decide),
      rfl, h1, ?_, ?_⟩
    · intro a
      simp only [CPixelSet.cell]
      constructor
      · rintro ⟨ha1, ha2⟩
        exact ⟨a - l, by omega, by omega, by omega⟩
      · rintro ⟨k, hk0, hk1, rfl⟩
        omega
    · intro B L m hue delta blur g gr gg gb c1 c2 c3 c4 p1 p2 p3 p4 dc
      simp only [CPixelSet.fill_rainbow, CPixelSet.blur1d, CPixelSet.napplyGamma_video,
        CPixelSet.napplyGamma_video3, CPixelSet.fill_gradient2, CPixelSet.fill_gradient3,
        CPixelSet.fill_gradient4, CPixelSet.fill_gradient_RGB2, CPixelSet.fill_gradient_RGB3,
        CPixelSet.fill_gradient_RGB4, hge, if_true, and_self]
  · subst hd
    have hge : ¬ ((-1 : Int) ≥ 0) := by decide
    have hne : ¬ ((-1 : Int) = 1) := by decide
    have hw : wrap32 (-n) = -n := wrap32_eq_self (by omega) (by omega)
    have hp : CPixelSet.span_ptr ⟨l, n, -1⟩ = l + n + 1 := by simp [CPixelSet.span_ptr]
    have hc : CPixelSet.span_count ⟨l, n, -1⟩ = -n := by simp [CPixelSet.span_count, hw]
    have hs : CPixelSet.size ⟨l, n, -1⟩ = -n := by
      simp only [CPixelSet.size]; rw [if_pos h2, hw]
    rw [hp, hc, hs]
    refine ⟨fun h => absurd (show (-1 : Int) = 1 from h) (by decide), fun _ => ⟨rfl, rfl⟩,
      rfl, by omega, ?_, ?_⟩
    · intro a
      simp only [CPixelSet.cell]
      constructor
      · rintro ⟨ha1, ha2⟩
        exact ⟨l - a, by omega, by omega, by omega⟩
      · rintro ⟨k, hk0, hk1, rfl⟩
        omega
    · intro B L m hue delta blur g gr gg gb c1 c2 c3 c4 p1 p2 p3 p4 dc
      simp only [CPixelSet.fill_rainbow, CPixelSet.blur1d, CPixelSet.napplyGamma_video,
        CPixelSet.napplyGamma_video3, CPixelSet.fill_gradient2, CPixelSet.fill_gradient3,
        CPixelSet.fill_gradient4, CPixelSet.fill_gradient_RGB2, CPixelSet.fill_gradient_RGB3,
        CPixelSet.fill_gradient_RGB4, hge, hne, hw, if_false, and_self]

/-- C12, on a concrete input: the reverse view over the cells 7, 6, .., 2 hands
the library the pointer 2 and the count 6. -/
theorem batch_span_witness :
    CPixelSet.Valid ⟨7, -6, -1⟩ ∧
    (CPixelSet.span_ptr ⟨7, -6, -1⟩ = 7 + -6 + 1 ∧ CPixelSet.span_count ⟨7, -6, -1⟩ = - -6) ∧
    CPixelSet.span_count ⟨7, -6, -1⟩ = CPixelSet.size ⟨7, -6, -1⟩ :=
  ⟨by decide,
    (@batch_span Nat Nat Unit Unit ⟨7, -6, -1⟩ (by decide)).2.1 rfl,
    (@batch_span Nat Nat Unit Unit ⟨7, -6, -1⟩ (by decide)).2.2.1⟩


/-! ### C13: the direction invariant -/

/-- C13: the direction invariant (`dir = 1` and `len >= 0`, or `dir = -1` and
`len < 0`, with `size() = |len|` for the 32-bit `len`) is what `Valid` says; it
holds for `CPixelSet(buf, count)` with `count >= 0` and for every inclusive-range
construction absent overflow; copy construction, slicing and reversal preserve
it; so on every reachable view `reversed()` is true exactly when `dir = -1`,
and a reachable reverse view has size at least 2. -/
theorem direction_invariant :
    (∀ v : CPixelSet, v.Valid ↔ v.DirInv ∧ Int32 v.len ∧ v.size = |v.len|) ∧
    (∀ leds count : Int, 0 ≤ count → count < 2147483648 → (CPixelSet.ofLen leds count).Valid) ∧
    (∀ leds start end_ : Int, |end_ - start| + 1 < 2147483648 →
      (CPixelSet.ofRange leds start end_).Valid) ∧
    (∀ v : CPixelSet, v.Valid → v.copy.Valid) ∧
    (∀ (v : CPixelSet) (start end_ : Int), |end_ - start| + 1 < 2147483648 →
      (v.op_call start end_).Valid) ∧
    (∀ v : CPixelSet, v.Valid → v.op_neg.Valid) ∧
    (∀ v : CPixelSet, v.Reachable →
      v.Valid ∧ (v.reversed = true ↔ v.dir = -1) ∧ (v.dir = -1 → 2 ≤ v.size)) := by
  have hreach : ∀ v : CPixelSet, v.Reachable → v.Valid ∧ (v.dir = -1 → v.len ≤ -2) := by
    intro v hv
    induction hv with
    | span leds count h0 h1 =>
      exact ⟨Or.inl ⟨rfl, h0, h1⟩, fun h => absurd (show (1 : Int) = -1 from h) (by decide)⟩
    | range leds start end_ h => exact ofRange_Valid leds start end_ h
    | copy v _ ih => exact ih
    | slice v start end_ _ h _ => exact ofRange_Valid _ start end_ h
    | neg v _ ih => exact op_neg_Valid ih.1
  refine ⟨Valid_iff, fun leds count h0 h1 => Or.inl ⟨rfl, h0, h1⟩,
    fun leds start end_ h => (ofRange_Valid leds start end_ h).1, fun v hv => hv,
    fun v start end_ h => (ofRange_Valid _ start end_ h).1,
    fun v hv => (op_neg_Valid hv).1, ?_⟩
  intro v hv
  obtain ⟨hval, h2⟩ := hreach v hv
  refine ⟨hval, ?_, ?_⟩
  · simp only [CPixelSet.reversed, decide_eq_true_eq]
    rcases hval with ⟨hd, h1, _⟩ | ⟨hd, _, h1⟩
    · rw [hd]
      constructor
      · intro h; omega
      · intro h; omega
    · exact ⟨fun _ => hd, fun _ => h1⟩
  · intro hd
    have hle := h2 hd
    rcases hval with ⟨hd1, _, _⟩ | ⟨_, h1, _⟩
    · rw [hd1] at hd; omega
    · simp only [CPixelSet.size]
      rw [if_pos (by omega), wrap32_eq_self (by omega) (by omega)]
      omega

/-- C13, on a concrete input: the descending slice (7,2) of a 10-cell buffer is
reachable; it is a reverse view, `reversed()` holds, and its size is at least 2. -/
theorem direction_invariant_witness :
    ((CPixelSet.ofLen 0 10).op_call 7 2).Valid ∧
    (((CPixelSet.ofLen 0 10).op_call 7 2).reversed = true ↔
      ((CPixelSet.ofLen 0 10).op_call 7 2).dir = -1) ∧
    (((CPixelSet.ofLen 0 10).op_call 7 2).dir = -1 →
      2 ≤ ((CPixelSet.ofLen 0 10).op_call 7 2).size) :=
  direction_invariant.2.2.2.2.2.2 _
    (CPixelSet.Reachable.slice _ 7 2
      (CPixelSet.Reachable.span 0 10 (by decide) (by decide)) (by norm_num))

/-! ### C14: iteration ends after `size()` steps -/

/-- C14: for every forward or reverse view `v`, `size()` increments of `begin()`
give an iterator equal (`operator==`) to `end()`; after fewer increments the
iterator is not equal to `end()` and dereferences the cell `leds + k*dir`; and
the `FOREACH` loop, with any body, ends after exactly `size()` passes. -/
theorem iteration_terminates (v : CPixelSet) (hv : v.Valid) :
    (pixelset_iterator.op_incr^[v.size.toNat] v.begin).op_eq v.end_ = true ∧
    (∀ k : Nat, (k : Int) < v.size →
      (pixelset_iterator.op_incr^[k] v.begin).op_eq v.end_ = false ∧
      (pixelset_iterator.op_incr^[k] v.begin).op_deref = v.cell k) ∧
    (∀ (σ : Type) (body : Int → σ → σ) (s : σ) (fuel : Nat), v.size ≤ (fuel : Int) →
      ∃ s', FOREACH v.len v.dir body fuel 0 s = some (s', v.size.toNat)) := by
  obtain ⟨hd, hN0, hN, hlen⟩ := Valid_facts hv
  refine ⟨?_, ?_, ?_⟩
  · rw [iterate_op_incr hv v.size.toNat (by omega)]
    have : ((v.size.toNat : Nat) : Int) * v.dir = v.len := by
      rw [hlen, Int.toNat_of_nonneg hN0]
    rw [this]
    simp [pixelset_iterator.op_eq, CPixelSet.op_eq, CPixelSet.end_]
  · intro k hk
    rw [iterate_op_incr hv k (by omega)]
    have hne : (k : Int) * v.dir ≠ v.len := by
      rw [hlen]
      rcases hd with h | h <;> rw [h] <;> omega
    refine ⟨?_, rfl⟩
    simp [pixelset_iterator.op_eq, CPixelSet.end_, hne]
  · intro σ body s fuel hfuel
    obtain ⟨s', hrun, _⟩ := FOREACH_invariant v.len v.dir body (fun _ _ => True) v.size hd hN hlen
      (fun _ _ _ _ _ => trivial) v.size.toNat 0 s fuel (le_refl 0) (by omega) (by omega) trivial
    simp only [zero_mul] at hrun
    exact ⟨s', hrun⟩

/-- C14, on a concrete input: the reverse view over the cells 7, 6, 5, 4, 3, 2. -/
theorem iteration_terminates_witness :
    CPixelSet.Valid ⟨7, -6, -1⟩ ∧
    (pixelset_iterator.op_incr^[(CPixelSet.size ⟨7, -6, -1⟩).toNat]
      (CPixelSet.begin ⟨7, -6, -1⟩)).op_eq (CPixelSet.end_ ⟨7, -6, -1⟩) = true :=
  ⟨by decide, (iteration_terminates ⟨7, -6, -1⟩ (by decide)).1⟩

/-! ### C15: reversal of the empty view -/

/-- C15 (the code departs from the claim): the empty forward view
`CPixelSet(buf, 0)` satisfies the direction invariant, has size 0 and no cell;
its reversal is `CPixelSet(buf - 1, -1, 0)`, the forward view of size 2 over
the cells `buf - 1` and `buf`. -/
theorem op_neg_empty_diverges :
    (CPixelSet.ofLen 0 0).Valid ∧
    (CPixelSet.ofLen 0 0).size = 0 ∧
    (CPixelSet.ofLen 0 0).cells 0 = some [] ∧
    (CPixelSet.ofLen 0 0).op_neg = ⟨-1, 2, 1⟩ ∧
    (CPixelSet.ofLen 0 0).op_neg.size = 2 ∧
    (CPixelSet.ofLen 0 0).op_neg.cells 2 = some [-1, 0] := by
  decide

/-! ### C16: broadcast assignment writes the cells of the view only -/

/-- C16: for every forward or reverse view `v` and pixel `X`, the assignment
`v = X` ends after `size()` passes; afterwards every cell `leds + k*dir`,
`0 <= k < size()`, holds `X`, every other cell holds what it held before, and
the view returned is `v` itself. -/
theorem op_assign_color_exact {P : Type} (v : CPixelSet) (X : P) (m : Mem P) (fuel : Nat)
    (hv : v.Valid) (hfuel : v.size ≤ (fuel : Int)) :
    ∃ m', v.op_assign_color X m fuel = some (m', v.size.toNat) ∧
      v.op_assign_color_this X m fuel = some (v, m') ∧
      (∀ k : Int, 0 ≤ k → k < v.size → m' (v.cell k) = X) ∧
      (∀ a : Int, (∀ k : Int, 0 ≤ k → k < v.size → a ≠ v.cell k) → m' a = m a) := by
  obtain ⟨hd, hN0, hN, hlen⟩ := Valid_facts hv
  have hstep : ∀ (t : Int) (s : Mem P), 0 ≤ t → t < v.size →
      ((∀ k : Int, 0 ≤ k → k < t → s (v.cell k) = X) ∧
        (∀ a : Int, (∀ k : Int, 0 ≤ k → k < t → a ≠ v.cell k) → s a = m a)) →
      ((∀ k : Int, 0 ≤ k → k < t + 1 → Mem.write s (v.leds + t * v.dir) X (v.cell k) = X) ∧
        (∀ a : Int, (∀ k : Int, 0 ≤ k → k < t + 1 → a ≠ v.cell k) →
          Mem.write s (v.leds + t * v.dir) X a = m a)) := by
    intro t s ht _ hinv
    obtain ⟨h1, h2⟩ := hinv
    constructor
    · intro k hk0 hk
      unfold Mem.write
      by_cases hkt : v.cell k = v.leds + t * v.dir
      · rw [if_pos hkt]
      · rw [if_neg hkt]
        have hne : k ≠ t := fun h => hkt (by rw [h]; rfl)
        exact h1 k hk0 (by omega)
    · intro a ha
      unfold Mem.write
      have hne : a ≠ v.leds + t * v.dir := ha t ht (by omega)
      rw [if_neg hne]
      exact h2 a (fun k hk0 hk => ha k hk0 (by omega))
  obtain ⟨m', hrun, h1, h2⟩ := FOREACH_invariant v.len v.dir
    (fun i s => Mem.write s (v.leds + i) X)
    (fun t s => (∀ k : Int, 0 ≤ k → k < t → s (v.cell k) = X) ∧
      (∀ a : Int, (∀ k : Int, 0 ≤ k → k < t → a ≠ v.cell k) → s a = m a))
    v.size hd hN hlen hstep v.size.toNat 0 m fuel (le_refl 0) (by omega) (by omega)
    ⟨fun k hk0 hk => absurd hk (by omega), fun a _ => rfl⟩
  simp only [zero_mul] at hrun
  have hrun2 : v.op_assign_color X m fuel = some (m', v.size.toNat) := hrun
  refine ⟨m', hrun2, ?_, h1, h2⟩
  simp only [CPixelSet.op_assign_color_this, hrun2, Option.map_some']

/-- C16, on a concrete input: the reverse view over the cells 3, 2, 1, 0 and the
pixel 1, on zero pixels. -/
theorem op_assign_color_exact_witness :
    (CPixelSet.Valid ⟨3, -4, -1⟩ ∧ CPixelSet.size ⟨3, -4, -1⟩ ≤ ((4 : Nat) : Int)) ∧
    ∃ m' : Mem Nat,
      CPixelSet.op_assign_color ⟨3, -4, -1⟩ 1 (fun _ => 0) 4
        = some (m', (CPixelSet.size ⟨3, -4, -1⟩).toNat) ∧
      CPixelSet.op_assign_color_this ⟨3, -4, -1⟩ 1 (fun _ => 0) 4 = some (⟨3, -4, -1⟩, m') ∧
      (∀ k : Int, 0 ≤ k → k < CPixelSet.size ⟨3, -4, -1⟩ →
        m' (CPixelSet.cell ⟨3, -4, -1⟩ k) = 1) ∧
      (∀ a : Int, (∀ k : Int, 0 ≤ k → k < CPixelSet.size ⟨3, -4, -1⟩ →
        a ≠ CPixelSet.cell ⟨3, -4, -1⟩ k) → m' a = 0) :=
  ⟨by decide,
    op_assign_color_exact ⟨3, -4, -1⟩ 1 (fun _ => 0) 4 (by decide) (by decide)⟩

/-! ### C17: scale-down by another view -/

/-- C17 as stated fails: `self` is the forward view over the cells 0..4, `rhs` the
forward view over the cells 10..12 (`len = 3`); the two memories agree on the
cells `self.leds + j` for `j` from 0 to 3 and differ in cell 4, a cell of `self`
that the loop does not visit; after `self.nscale8(rhs)` cell 4 still differs. -/
theorem nscale8_set_counterexample :
    (∀ j : Int, 0 ≤ j → j ≤ 3 →
      (fun _ : Int => (0 : Nat)) (0 + j) = (fun x : Int => if x = 4 then (1 : Nat) else 0) (0 + j)) ∧
    (CPixelSet.nscale8_set (fun p q : Nat => p * q / 256) ⟨0, 5, 1⟩ ⟨10, 3, 1⟩
        (fun _ => 0) 3).map (fun r => (r.1 4, r.2)) = some (0, 3) ∧
    (CPixelSet.nscale8_set (fun p q : Nat => p * q / 256) ⟨0, 5, 1⟩ ⟨10, 3, 1⟩
        (fun x => if x = 4 then 1 else 0) 3).map (fun r => (r.1 4, r.2)) = some (1, 3) := by
  refine ⟨?_, by decide, by decide⟩
  intro j h0 h3
  have : ¬ (0 + j = 4) := by omega
  simp only [this, if_false]

/-- C17, amended: for forward or reverse views `self` and `rhs`, take two runs of
`self.nscale8(rhs)` in which `rhs` has the same `len` and `dir` (its pointer may
differ), started from memories that agree on the cells of `self` and on every
cell `self.leds + j` the loop reads (`j = k*rhs.dir`, `0 <= k < rhs.size()`).
Both runs end after the same number of passes, and the final contents of the
cells of `self` are the same in both, whatever the cells of `rhs` hold. -/
theorem nscale8_set_independent {P : Type} (nscale8 : P → P → P)
    (self rhs1 rhs2 : CPixelSet) (m1 m2 : Mem P) (fuel : Nat)
    (hs : self.Valid) (hr : rhs1.Valid)
    (hlen : rhs2.len = rhs1.len) (hdir : rhs2.dir = rhs1.dir)
    (hself : ∀ k : Int, 0 ≤ k → k < self.size → m1 (self.cell k) = m2 (self.cell k))
    (hread : ∀ k : Int, 0 ≤ k → k < rhs1.size →
      m1 (self.leds + k * rhs1.dir) = m2 (self.leds + k * rhs1.dir))
    (hfuel : min self.size rhs1.size ≤ (fuel : Int)) :
    ∃ m1' m2',
      self.nscale8_set nscale8 rhs1 m1 fuel = some (m1', (min self.size rhs1.size).toNat) ∧
      self.nscale8_set nscale8 rhs2 m2 fuel = some (m2', (min self.size rhs1.size).toNat) ∧
      ∀ k : Int, 0 ≤ k → k < self.size → m1' (self.cell k) = m2' (self.cell k) := by
  obtain ⟨hd, hN0, hN, hlen1⟩ := Valid_facts hs
  obtain ⟨hrd, hM0, hM, hrlen⟩ := Valid_facts hr
  have hmin0 : 0 ≤ min self.size rhs1.size := le_min hN0 hM0
  have hstep : ∀ (t : Int) (s1 s2 : Mem P), 0 ≤ t → t < self.size → t < rhs1.size →
      ((∀ k : Int, 0 ≤ k → k < self.size → s1 (self.cell k) = s2 (self.cell k)) ∧
        (∀ k : Int, 0 ≤ k → k < rhs1.size →
          s1 (self.leds + k * rhs1.dir) = s2 (self.leds + k * rhs1.dir))) →
      ((∀ k : Int, 0 ≤ k → k < self.size →
          Mem.write s1 (self.leds + t * self.dir)
              (nscale8 (s1 (self.leds + t * self.dir)) (s1 (self.leds + t * rhs1.dir)))
              (self.cell k)
            = Mem.write s2 (self.leds + t * self.dir)
              (nscale8 (s2 (self.leds + t * self.dir)) (s2 (self.leds + t * rhs1.dir)))
              (self.cell k)) ∧
        (∀ k : Int, 0 ≤ k → k < rhs1.size →
          Mem.write s1 (self.leds + t * self.dir)
              (nscale8 (s1 (self.leds + t * self.dir)) (s1 (self.leds + t * rhs1.dir)))
              (self.leds + k * rhs1.dir)
            = Mem.write s2 (self.leds + t * self.dir)
              (nscale8 (s2 (self.leds + t * self.dir)) (s2 (self.leds + t * rhs1.dir)))
              (self.leds + k * rhs1.dir))) := by
    intro t s1 s2 ht htN htM hR
    obtain ⟨h1, h2⟩ := hR
    have e1 : s1 (self.leds + t * self.dir) = s2 (self.leds + t * self.dir) := h1 t ht htN
    have e2 : s1 (self.leds + t * rhs1.dir) = s2 (self.leds + t * rhs1.dir) := h2 t ht htM
    constructor
    · intro k hk0 hk
      unfold Mem.write
      rw [e1, e2]
      split_ifs
      · rfl
      · exact h1 k hk0 hk
    · intro k hk0 hk
      unfold Mem.write
      rw [e1, e2]
      split_ifs
      · rfl
      · exact h2 k hk0 hk
  obtain ⟨m1', m2', hrun1, hrun2, h1, _⟩ := FOREACH_RHS_relation self.len self.dir
    rhs1.len rhs1.dir
    (fun i j s => Mem.write s (self.leds + i) (nscale8 (s (self.leds + i)) (s (self.leds + j))))
    (fun s1 s2 => (∀ k : Int, 0 ≤ k → k < self.size → s1 (self.cell k) = s2 (self.cell k)) ∧
      (∀ k : Int, 0 ≤ k → k < rhs1.size →
        s1 (self.leds + k * rhs1.dir) = s2 (self.leds + k * rhs1.dir)))
    self.size rhs1.size hd hrd hN hM hlen1 hrlen hstep
    (min self.size rhs1.size).toNat 0 m1 m2 fuel (le_refl 0) (by omega) (by omega)
    ⟨hself, hread⟩
  simp only [zero_mul] at hrun1 hrun2
  refine ⟨m1', m2', hrun1, ?_, h1⟩
  simp only [CPixelSet.nscale8_set, hlen, hdir]
  exact hrun2

/-- C17 amended, on a concrete input: `self` is the forward view over the cells
0..4, `rhs` a reverse view of size 3 placed at cell 12 in one run and at cell 22
in the other; the memories hold 7 and 9 in the cells from 10 on, and agree
below. -/
theorem nscale8_set_independent_witness :
    (CPixelSet.Valid ⟨0, 5, 1⟩ ∧ CPixelSet.Valid ⟨12, -3, -1⟩) ∧
    ∃ m1' m2' : Mem Nat,
      CPixelSet.nscale8_set (fun p q : Nat => p * q / 256) ⟨0, 5, 1⟩ ⟨12, -3, -1⟩
          (fun x => if 10 ≤ x then 7 else 200) 3
        = some (m1', (min (CPixelSet.size ⟨0, 5, 1⟩) (CPixelSet.size ⟨12, -3, -1⟩)).toNat) ∧
      CPixelSet.nscale8_set (fun p q : Nat => p * q / 256) ⟨0, 5, 1⟩ ⟨22, -3, -1⟩
          (fun x => if 10 ≤ x then 9 else 200) 3
        = some (m2', (min (CPixelSet.size ⟨0, 5, 1⟩) (CPixelSet.size ⟨12, -3, -1⟩)).toNat) ∧
      ∀ k : Int, 0 ≤ k → k < CPixelSet.size ⟨0, 5, 1⟩ →
        m1' (CPixelSet.cell ⟨0, 5, 1⟩ k) = m2' (CPixelSet.cell ⟨0, 5, 1⟩ k) :=
  ⟨by decide,
    nscale8_set_independent (fun p q : Nat => p * q / 256) ⟨0, 5, 1⟩ ⟨12, -3, -1⟩ ⟨22, -3, -1⟩
      (fun x => if 10 ≤ x then 7 else 200) (fun x => if 10 ≤ x then 9 else 200) 3
      (by decide) (by decide) rfl rfl
      (by
        intro k hk0 hk
        have h5 : CPixelSet.size ⟨0, 5, 1⟩ = 5 := by decide
        rw [h5] at hk
        have hlt : ¬ (10 ≤ CPixelSet.cell ⟨0, 5, 1⟩ k) := by
          simp only [CPixelSet.cell]; omega
        simp only [hlt, if_false])
      (by
        intro k hk0 hk
        have h3 : CPixelSet.size ⟨12, -3, -1⟩ = 3 := by decide
        rw [h3] at hk
        have hlt : ¬ (10 ≤ (0 : Int) + k * -1) := by omega
        simp only [hlt, if_false])
      (by decide)⟩

/-! ### C18: the two inclusive-range constructors -/

/-- C18: for all `start` and `end`, with the subtraction taken modulo 2^32 and `>>`
the arithmetic shift, the `ARM` constructor (`dir = 0x01 | len>>31; len += dir`)
builds the same `(leds, len, dir)` as the portable one
(`dir = (len<0) ? -1 : 1; len += dir`). -/
theorem ofRangeARM_eq_ofRange (leds start end_ : Int) :
    CPixelSet.ofRangeARM leds start end_ = CPixelSet.ofRange leds start end_ := by
  obtain ⟨h1, h2⟩ := wrap32_range (end_ - start)
  have e1 : or32 1 (-1) = -1 := by decide
  have e0 : or32 1 0 = 1 := by decide
  simp only [CPixelSet.ofRangeARM, CPixelSet.ofRange, shiftRight31 _ h1 h2]
  split_ifs
  · rw [e1]
  · rw [e0]


end PixelSet
